import Mathlib

/-!
# Verification of the deep-agents-ui client engine

A shallow embedding, in Lean 4, of the client-side logic of the
`deep-agents-ui` repository:

* the message/tool-call correlator (`processedMessages` in
  `src/app/components/ChatInterface.tsx`),
* the interrupt resolver (`actionRequestsMap` / `reviewConfigsMap` in the
  same file),
* the send path (`handleSubmit` in the same file),
* the side-channel synchronizer (`sendMessage` / `patchThreadWithImages` /
  `onThreadId` in `src/app/hooks/useChat.ts`),
* the assistant resolver and thread-driven re-resolution
  (`fetchAssistant`, `loadThreadAssistant`, `onThreadSelect` in
  `src/app/page.tsx`).

JavaScript values that the code probes dynamically are modelled by `JsVal`,
with JavaScript truthiness made explicit.  Asynchronous collaborators
(network calls) are modelled by `Except` results passed in as inputs, and
effects (submits, alerts, patches) are returned explicitly.  `Math.random()`
is modelled as a stream of draws (`rng : Nat → String`, the rendering of the
successive draws inside the template string).
-/

namespace DeepAgentsUI

/-- A JavaScript value, as probed dynamically by the client code.
Numbers are modelled as integers (no NaN arises in the probed payloads). -/
inductive JsVal : Type
  | undefined
  | jsNull
  | bool (b : Bool)
  | num (n : Int)
  | str (s : String)
  | arr (elems : List JsVal)
  | obj (fields : List (String × JsVal))

/-- JavaScript truthiness: `undefined`, `null`, `false`, `0` and `""` are
falsy; every array and object is truthy. -/
def JsVal.truthy : JsVal → Bool
  | .undefined => false
  | .jsNull => false
  | .bool b => b
  | .num n => n != 0
  | .str s => s != ""
  | .arr _ => true
  | .obj _ => true

/-- Property read on a value that is known not to be `undefined`/`null`
(primitives box to wrapper objects carrying none of the probed fields, so
the read yields `undefined` on them). -/
def JsVal.getField : JsVal → String → JsVal
  | .obj fields, k =>
    match fields.find? (fun p => p.1 == k) with
    | some p => p.2
    | none => .undefined
  | _, _ => .undefined

/-- Property read that can throw: reading a property of `undefined` or
`null` raises a `TypeError`. -/
def JsVal.getFieldE : JsVal → String → Except String JsVal
  | .undefined, k => .error ("TypeError: cannot read properties of undefined: " ++ k)
  | .jsNull, k => .error ("TypeError: cannot read properties of null: " ++ k)
  | v, k => .ok (v.getField k)

/-- JavaScript `SameValueZero` key equality as used by `Map`.  Primitive
values compare by value.  Arrays and objects compare by reference; the
composite keys reaching a `Map` here are distinct decoded payload nodes, so
they are modelled as never colliding. -/
def JsVal.sameValueZero : JsVal → JsVal → Bool
  | .undefined, .undefined => true
  | .jsNull, .jsNull => true
  | .bool a, .bool b => a == b
  | .num a, .num b => a == b
  | .str a, .str b => a == b
  | _, _ => false

/-- `Map.prototype.set`: overwriting a `SameValueZero`-equal key keeps the
original key and its position and replaces the value; a fresh key is
appended in insertion order. -/
def jsMapSet (m : List (JsVal × JsVal)) (k v : JsVal) : List (JsVal × JsVal) :=
  match m with
  | [] => [(k, v)]
  | (k', v') :: rest =>
    if JsVal.sameValueZero k' k then (k', v) :: rest
    else (k', v') :: jsMapSet rest k v

/-- `new Map(pairs)`: insert every `[key, value]` pair in order. -/
def jsMapOfPairs (pairs : List (JsVal × JsVal)) : List (JsVal × JsVal) :=
  pairs.foldl (fun m p => jsMapSet m p.1 p.2) []

/-- The active interrupt as delivered by the stream (`stream.interrupt`):
when present it is an object carrying an opaque `value`. -/
structure Interrupt where
  value : JsVal

/-- `actionRequestsMap` (ChatInterface.tsx): parse the named action requests
out of the interrupt.  `interrupt?.value && value["action_requests"]`
evaluates to a falsy value (empty map returned) when the interrupt is
absent, its value falsy, or the field falsy; when the field is a truthy
array, build `new Map(actionRequests.map(ar => [ar.name, ar]))`; a truthy
non-array field makes `.map` throw a `TypeError`, and a nullish array
element makes `ar.name` throw. -/
def actionRequestsMap (interrupt : Option Interrupt) :
    Except String (List (JsVal × JsVal)) :=
  let actionRequests : JsVal :=
    match interrupt with
    | none => .undefined
    | some i => if i.value.truthy then i.value.getField "action_requests" else i.value
  if !actionRequests.truthy then .ok []
  else
    match actionRequests with
    | .arr elems => do
      let pairs ← elems.mapM (fun ar => do
        let nm ← ar.getFieldE "name"
        pure (nm, ar))
      pure (jsMapOfPairs pairs)
    | _ => .error "TypeError: actionRequests.map is not a function"

/-- `reviewConfigsMap` (ChatInterface.tsx): same shape as
`actionRequestsMap`, over the `review_configs` field and keyed by
`rc.actionName`. -/
def reviewConfigsMap (interrupt : Option Interrupt) :
    Except String (List (JsVal × JsVal)) :=
  let reviewConfigs : JsVal :=
    match interrupt with
    | none => .undefined
    | some i => if i.value.truthy then i.value.getField "review_configs" else i.value
  if !reviewConfigs.truthy then .ok []
  else
    match reviewConfigs with
    | .arr elems => do
      let pairs ← elems.mapM (fun rc => do
        let nm ← rc.getFieldE "actionName"
        pure (nm, rc))
      pure (jsMapOfPairs pairs)
    | _ => .error "TypeError: reviewConfigs.map is not a function"

/-- Role of a conversation message (`message.type`). -/
inductive MsgType : Type
  | human
  | ai
  | tool
deriving DecidableEq

/-- A dynamically probed field that the code guards with
`field && Array.isArray(field)`: it may be absent (`undefined`), present but
not an array, or an array of `α`.  Arrays are truthy even when empty, so
the guard holds exactly for the `arr` case. -/
inductive JsField (α : Type) : Type
  | absent
  | notArr
  | arr (l : List α)

/-- One raw tool-call request as found in a message, before normalization:
the code probes `id`, `function.name`, `function.arguments`, `name`,
`type`, `args` and `input`, each of which may be absent. -/
structure RawToolCall where
  id : Option String
  fnName : Option String
  fnArgs : Option JsVal
  name : Option String
  typ : Option String
  args : Option JsVal
  input : Option JsVal

/-- One typed content part of a message (`text` / `tool_use` / image
blocks). -/
structure ContentBlock where
  typ : Option String
  text : Option String
  id : Option String
  name : Option String
  input : Option JsVal

/-- A `tool_use` content block read as a raw tool call: the block carries no
`function`, `args` fields, so those probe to `undefined`. -/
def ContentBlock.asRawToolCall (b : ContentBlock) : RawToolCall :=
  { id := b.id, fnName := none, fnArgs := none, name := b.name,
    typ := b.typ, args := none, input := b.input }

/-- Message content: plain text or an ordered list of typed parts. -/
inductive MsgContent : Type
  | str (s : String)
  | blocks (bs : List ContentBlock)

/-- One conversation event (`Message` of the SDK) with exactly the fields
the correlator probes. -/
structure Message where
  typ : MsgType
  id : Option String
  content : MsgContent
  akToolCalls : JsField RawToolCall
  toolCalls : JsField RawToolCall
  toolCallId : Option String

/-- The `toolCallsInMessage` accumulation of `processedMessages`
(ChatInterface.tsx): probe `additional_kwargs?.tool_calls`, then
`message.tool_calls` (filtering calls whose `name` is the empty string),
then the `tool_use` blocks of an array-valued `content`; each probe is
guarded by `value && Array.isArray(value)`, which holds exactly when the
field is an array — even an empty one, since arrays are truthy. -/
def toolCallsInMessage (m : Message) : List RawToolCall :=
  match m.akToolCalls with
  | .arr l => l
  | _ =>
    match m.toolCalls with
    | .arr l => l.filter (fun tc => tc.name != some "")
    | _ =>
      match m.content with
      | .blocks bs =>
        (bs.filter (fun b => b.typ == some "tool_use")).map ContentBlock.asRawToolCall
      | _ => []

/-- JavaScript `a || b` over a possibly-absent string: an absent or empty
string falls through to the fallback. -/
def jsOrStr (a : Option String) (b : String) : String :=
  match a with
  | some s => if s != "" then s else b
  | none => b

/-- JavaScript `a || b` over a possibly-absent value: an absent or falsy
value falls through to the fallback. -/
def jsOrVal (a : Option JsVal) (b : JsVal) : JsVal :=
  match a with
  | some v => if v.truthy then v else b
  | none => b

/-- Derived per-call record status. -/
inductive ToolCallStatus : Type
  | pending
  | interrupted
  | completed
deriving DecidableEq

/-- Derived tool-call record (`ToolCall` of the UI types). -/
structure ToolCall where
  id : String
  name : String
  args : JsVal
  status : ToolCallStatus
  result : Option String

/-- Normalization of one raw tool call in `processedMessages`:
`id: toolCall.id || `tool-${Math.random()}``,
`name: function?.name || name || type || "unknown"`,
`args: function?.arguments || args || input || {}`,
`status: interrupt ? "interrupted" : "pending"`.
The counter `k` indexes the next `Math.random()` draw of the stream `rng`;
it advances exactly when an id is synthesized. -/
def normalizeToolCall (interrupt : Option Interrupt) (rng : Nat → String)
    (k : Nat) (tc : RawToolCall) : ToolCall × Nat :=
  let idk : String × Nat :=
    match tc.id with
    | some s => if s != "" then (s, k) else ("tool-" ++ rng k, k + 1)
    | none => ("tool-" ++ rng k, k + 1)
  ({ id := idk.1,
     name := jsOrStr tc.fnName (jsOrStr tc.name (jsOrStr tc.typ "unknown")),
     args := jsOrVal tc.fnArgs (jsOrVal tc.args (jsOrVal tc.input (.obj []))),
     status := if interrupt.isSome then .interrupted else .pending,
     result := none }, idk.2)

/-- The `toolCallsWithStatus` map of `processedMessages`, threading the
`Math.random()` draw counter left to right. -/
def toolCallsWithStatus (interrupt : Option Interrupt) (rng : Nat → String) :
    List RawToolCall → Nat → List ToolCall × Nat
  | [], k => ([], k)
  | tc :: rest, k =>
    let ck := normalizeToolCall interrupt rng k tc
    let rk := toolCallsWithStatus interrupt rng rest ck.2
    (ck.1 :: rk.1, rk.2)

/-- One entry of the correlator's `messageMap`. -/
structure MapEntry where
  message : Message
  toolCalls : List ToolCall

/-- `Map.prototype.set` on the `messageMap`, keyed by `message.id!`
(`none` models an absent id used as the `undefined` key). -/
def msgMapSet (m : List (Option String × MapEntry)) (k : Option String)
    (v : MapEntry) : List (Option String × MapEntry) :=
  match m with
  | [] => [(k, v)]
  | (k', v') :: rest =>
    if k' == k then (k', v) :: rest else (k', v') :: msgMapSet rest k v

/-- Modelled from the spec: `extractStringFromMessageContent`
(`src/app/utils/utils.ts` is not among the provided sources).  Per the
spec's data model, a Turn's content is plain text or an ordered sequence of
typed parts; its extracted text content is the plain text itself, or the
concatenation of the text parts. -/
def extractStringFromMessageContent (m : Message) : String :=
  match m.content with
  | .str s => s
  | .blocks bs =>
    String.join ((bs.filter (fun b => b.typ == some "text")).map (fun b => b.text.getD ""))

/-- Replace the first tool call carrying id `tcid` with its completed
version (`findIndex` followed by an in-place update). -/
def markFirstCompleted (tcid res : String) : List ToolCall → List ToolCall
  | [] => []
  | tc :: rest =>
    if tc.id == tcid then
      { tc with status := .completed, result := some res } :: rest
    else tc :: markFirstCompleted tcid res rest

/-- Processing of a tool message: walk the map entries in insertion order,
find the first entry whose call list contains `tcid`, complete that call,
and stop (`break`).  When no entry matches, the result is discarded. -/
def completeInEntries (tcid res : String) :
    List (Option String × MapEntry) → List (Option String × MapEntry)
  | [] => []
  | (k, e) :: rest =>
    if e.toolCalls.any (fun tc => tc.id == tcid) then
      (k, { e with toolCalls := markFirstCompleted tcid res e.toolCalls }) :: rest
    else (k, e) :: completeInEntries tcid res rest

/-- One step of the `messages.forEach` fold of `processedMessages`.  The
state is the `messageMap` (insertion-ordered) paired with the
`Math.random()` draw counter. -/
def processMessage (interrupt : Option Interrupt) (rng : Nat → String)
    (st : List (Option String × MapEntry) × Nat) (m : Message) :
    List (Option String × MapEntry) × Nat :=
  match m.typ with
  | .ai =>
    let tk := toolCallsWithStatus interrupt rng (toolCallsInMessage m) st.2
    (msgMapSet st.1 m.id ⟨m, tk.1⟩, tk.2)
  | .tool =>
    match m.toolCallId with
    | none => st
    | some tcid =>
      if tcid == "" then st
      else (completeInEntries tcid (extractStringFromMessageContent m) st.1, st.2)
  | .human => (msgMapSet st.1 m.id ⟨m, []⟩, st.2)

/-- One derived display record. -/
structure ProcessedMessage where
  message : Message
  toolCalls : List ToolCall
  showAvatar : Bool

/-- The final pass of `processedMessages`:
`showAvatar: data.message.type !== prevMessage?.type` (true for the first
record, whose predecessor is `null`). -/
def addShowAvatar : Option MsgType → List MapEntry → List ProcessedMessage
  | _, [] => []
  | prev, e :: rest =>
    { message := e.message, toolCalls := e.toolCalls,
      showAvatar :=
        match prev with
        | none => true
        | some t => t != e.message.typ } :: addShowAvatar (some e.message.typ) rest

/-- The correlator `processedMessages` (ChatInterface.tsx): fold the
message sequence into the `messageMap`, then emit the map's values in
insertion order with the separator flag. -/
def processedMessages (msgs : List Message) (interrupt : Option Interrupt)
    (rng : Nat → String) : List ProcessedMessage :=
  let st := msgs.foldl (processMessage interrupt rng) ([], 0)
  addShowAvatar none (st.1.map (fun p => p.2))

/-- An uploaded artifact as returned by the upload collaborator. -/
structure UploadedImage where
  doc_id : String
  storage_url : String
  storage_path : String
deriving DecidableEq

/-- An artifact reference recorded against a thread
(`{doc_id, storage_path}`). -/
structure ImageRef where
  doc_id : String
  storage_path : String
deriving DecidableEq

/-- The reference kept for thread metadata out of an uploaded artifact. -/
def UploadedImage.toRef (i : UploadedImage) : ImageRef :=
  ⟨i.doc_id, i.storage_path⟩

/-- A value of the thread-metadata object: either an array of artifact
references (the shape `Array.isArray(metadata.images)` accepts) or any
other JSON value, opaque here. -/
inductive MetaVal : Type
  | imgs (l : List ImageRef)
  | other (s : String)
deriving DecidableEq

/-- Lookup in a JSON object modelled as an insertion-ordered key/value
list. -/
def metaLookup : List (String × MetaVal) → String → Option MetaVal
  | [], _ => none
  | (k', v) :: rest, k => if k' == k then some v else metaLookup rest k

/-- `{...m, k: v}`: every key of `m` keeps its value except `k`, which is
replaced in place (or appended when absent). -/
def metaSet (m : List (String × MetaVal)) (k : String) (v : MetaVal) :
    List (String × MetaVal) :=
  match m with
  | [] => [(k, v)]
  | (k', v') :: rest =>
    if k' == k then (k', v) :: rest else (k', v') :: metaSet rest k v

/-- `Map<string, ImageRef>.set` used by the merge, keyed by `doc_id`. -/
def refMapSet (m : List (String × ImageRef)) (k : String) (v : ImageRef) :
    List (String × ImageRef) :=
  match m with
  | [] => [(k, v)]
  | (k', v') :: rest =>
    if k' == k then (k', v) :: rest else (k', v') :: refMapSet rest k v

/-- The merge of `patchThreadWithImages` (useChat.ts): existing entries are
inserted first, skipping those with a falsy `doc_id`; new entries are then
inserted unconditionally, overriding same-id entries; the written array is
`Array.from(imageMap.values())`. -/
def mergeImages (existingImages news : List ImageRef) : List ImageRef :=
  let m1 := existingImages.foldl
    (fun m img => if img.doc_id != "" then refMapSet m img.doc_id img else m) []
  let m2 := news.foldl (fun m img => refMapSet m img.doc_id img) m1
  m2.map (fun p => p.2)

/-- The pure core of `patchThreadWithImages` (useChat.ts): given the
fetched thread metadata (`currentThread.metadata || {}`) and the new
artifact references, produce the full metadata object written back by the
PATCH — or no write at all when no images were passed
(`images.length === 0` early return). -/
def patchThreadWithImages (currentMetadata : List (String × MetaVal))
    (images : List ImageRef) : Option (List (String × MetaVal)) :=
  if images.isEmpty then none
  else
    let existingImages :=
      match metaLookup currentMetadata "images" with
      | some (.imgs l) => l
      | _ => []
    let mergedImages := mergeImages existingImages images
    some (metaSet currentMetadata "images" (.imgs mergedImages))

/-- A metadata patch dispatched to the runtime for a thread. -/
structure PatchRequest where
  threadId : String
  images : List ImageRef
deriving DecidableEq

/-- The artifact side channel of `sendMessage` (useChat.ts, after the
submit): with images attached, a truthy thread id schedules a delayed
patch (Path A), while a missing one records the references as pending —
overwriting `pendingImagesForThread.current` (Path B).  Returns the new
pending set and the dispatched patches. -/
def sendMessageSideChannel (threadId : Option String)
    (uploadedImages : List UploadedImage) (pending : List ImageRef) :
    List ImageRef × List PatchRequest :=
  if uploadedImages.isEmpty then (pending, [])
  else
    let imageRefs := uploadedImages.map UploadedImage.toRef
    match threadId with
    | some tid =>
      if tid != "" then (pending, [⟨tid, imageRefs⟩])
      else (imageRefs, [])
    | none => (imageRefs, [])

/-- The `onThreadId` callback of the stream subscription (useChat.ts):
on a truthy new thread id with a non-empty pending set, dispatch one patch
carrying the pending references and clear the set in the very next
statement — synchronously at dispatch, without awaiting the patch.
Returns the new pending set and the dispatched patches. -/
def onThreadId (newThreadId : String) (pending : List ImageRef) :
    List ImageRef × List PatchRequest :=
  if newThreadId != "" && !pending.isEmpty then ([], [⟨newThreadId, pending⟩])
  else (pending, [])

/-- JavaScript `String.prototype.trim`: strip leading and trailing
whitespace. -/
def jsTrim (s : String) : String :=
  ⟨((s.data.dropWhile Char.isWhitespace).reverse.dropWhile Char.isWhitespace).reverse⟩

/-- One observable effect of the submit handler. -/
inductive SendEffect : Type
  | logError (msg : String)
  | alert (msg : String)
  | send (text : String) (images : List UploadedImage)
deriving DecidableEq

/-- The send path `handleSubmit` (ChatInterface.tsx), with the upload
collaborator's outcome passed in (`uploadResult` applies when images are
attached; its error is the thrown error's message).  Effects appear in
program order: on upload failure the code logs, raises `alert`, and — when
trimmed text is present — still sends the text-only message; the
artifact-bearing message is sent only on upload success. -/
def handleSubmit (input : String) (selectedImages : List String)
    (isLoading submitDisabled : Bool)
    (uploadResult : Except String (List UploadedImage)) : List SendEffect :=
  let messageText := jsTrim input
  if (messageText == "" && selectedImages.isEmpty) || isLoading || submitDisabled then []
  else if !selectedImages.isEmpty then
    match uploadResult with
    | .ok uploadedImages => [.send messageText uploadedImages]
    | .error e =>
      [.logError ("Failed to upload images: " ++ e),
       .alert ("Failed to upload images: " ++ e)]
      ++ (if messageText != "" then [.send messageText []] else [])
  else [.send messageText []]

/-- A hexadecimal digit, case-insensitive. -/
def isHexDigit (c : Char) : Bool :=
  c.isDigit || "abcdefABCDEF".toList.contains c

/-- The UUID test
`/^[0-9a-f]{8}-[0-9a-f]{4}-[0-9a-f]{4}-[0-9a-f]{4}-[0-9a-f]{12}$/i`:
36 characters, hyphens at offsets 8, 13, 18, 23, hex digits elsewhere. -/
def isUUID (s : String) : Bool :=
  let cs := s.toList
  cs.length == 36 &&
  (List.range 36).all (fun i =>
    if i == 8 || i == 13 || i == 18 || i == 23 then cs.getD i ' ' == '-'
    else isHexDigit (cs.getD i ' '))

/-- A resolved agent descriptor, with exactly the fields the client reads
or synthesizes (`metadata?.["created_by"]` is kept as `created_by`). -/
structure Assistant where
  assistant_id : String
  graph_id : String
  created_at : String
  updated_at : String
  name : String
  created_by : Option String
  version : Nat
deriving DecidableEq

/-- A thrown error, with the status fields the code probes
(`error?.status`, `error?.response?.status`). -/
structure JsError where
  status : Option Nat
  respStatus : Option Nat
  message : String

/-- The placeholder descriptor synthesized on resolution failure:
`assistant_id` and `graph_id` carry the requested identifier, timestamps
carry the current time, and the display name is the given one. -/
def placeholderAssistant (targetId now displayName : String) : Assistant :=
  { assistant_id := targetId, graph_id := targetId, created_at := now,
    updated_at := now, name := displayName, created_by := none, version := 1 }

/-- `try { ... } catch (e) { ... }` over a fallible computation. -/
def tryCatch {α : Type} (x : Except JsError α)
    (handler : JsError → Except JsError α) : Except JsError α :=
  match x with
  | .ok a => .ok a
  | .error e => handler e

/-- The assistant resolver `fetchAssistant` (page.tsx) as a fallible
computation over the outcomes of its two possible network calls: a
UUID-shaped target is looked up directly, with any failure replaced by a
placeholder named `"Assistant"`; otherwise the graph is searched for the
assistant whose metadata marks it `created_by: "system"`, a missing
default is thrown and caught, and both the 404 and the generic catch
branches (which differ only in what they log) fall back to a placeholder
named after the target id. -/
def fetchAssistant (targetId now : String)
    (getResult : Except JsError Assistant)
    (searchResult : Except JsError (List Assistant)) : Except JsError Assistant :=
  if isUUID targetId then
    tryCatch getResult (fun _ => .ok (placeholderAssistant targetId now "Assistant"))
  else
    tryCatch
      (match searchResult with
       | .ok assistants =>
         match assistants.find? (fun a => a.created_by == some "system") with
         | some a => .ok a
         | none => .error ⟨none, none, "No default assistant found"⟩
       | .error e => .error e)
      (fun e =>
        if e.status == some 404 || e.respStatus == some 404 then
          .ok (placeholderAssistant targetId now targetId)
        else
          .ok (placeholderAssistant targetId now targetId))

/-- A fetched thread, with the two fields the re-resolution path reads. -/
structure Thread where
  metaAssistantId : Option String
  assistant_id : Option String

/-- JavaScript `a || b` over possibly-absent strings. -/
def jsOrOptStr (a b : Option String) : Option String :=
  match a with
  | some s => if s != "" then some s else b
  | none => b

/-- The session state the re-resolution paths may update. -/
structure SessionState where
  selectedAgentId : String
  assistant : Option Assistant
deriving DecidableEq

/-- The `loadThreadAssistant` effect (page.tsx): read the loaded thread's
backing assistant id (`thread.metadata?.assistant_id || thread.assistant_id`);
a non-UUID id updates the selection only when it is exactly `"research"` or
`"chat"` and differs from the current one (then `fetchAssistant` re-resolves
it, modelled by `fetchedFor`); a UUID id is looked up and its `graph_id`
updates the selection only when it is exactly `"research"` or `"chat"` and
differs; every failure is caught and leaves the state unchanged. -/
def loadThreadAssistant (threadResult : Except JsError Thread)
    (lookup : String → Except JsError Assistant)
    (fetchedFor : String → Assistant) (st : SessionState) : SessionState :=
  match threadResult with
  | .error _ => st
  | .ok thread =>
    match jsOrOptStr thread.metaAssistantId thread.assistant_id with
    | none => st
    | some tid =>
      if tid == "" then st
      else if !isUUID tid then
        if tid == "research" || tid == "chat" then
          if st.selectedAgentId != tid then
            { selectedAgentId := tid, assistant := some (fetchedFor tid) }
          else st
        else st
      else
        match lookup tid with
        | .error _ => st
        | .ok threadAssistant =>
          if threadAssistant.graph_id == "research" || threadAssistant.graph_id == "chat" then
            if st.selectedAgentId != threadAssistant.graph_id then
              { selectedAgentId := threadAssistant.graph_id,
                assistant := some threadAssistant }
            else st
          else st

/-- The `onThreadSelect` handler (page.tsx): with an assistant id attached
to the selected thread, a non-UUID id equal to `"research"` or `"chat"`
updates the selection immediately (and re-resolves, modelled by
`fetchedFor`); a UUID id is looked up and updates the selection only when
its `graph_id` is exactly `"research"` or `"chat"`; lookup failure is
caught and leaves the state unchanged. -/
def onThreadSelect (assistantId : Option String)
    (lookup : String → Except JsError Assistant)
    (fetchedFor : String → Assistant) (st : SessionState) : SessionState :=
  match assistantId with
  | none => st
  | some aid =>
    if aid == "" then st
    else if !isUUID aid && (aid == "research" || aid == "chat") then
      { selectedAgentId := aid, assistant := some (fetchedFor aid) }
    else if isUUID aid then
      match lookup aid with
      | .error _ => st
      | .ok threadAssistant =>
        if threadAssistant.graph_id == "research" || threadAssistant.graph_id == "chat" then
          { selectedAgentId := threadAssistant.graph_id,
            assistant := some threadAssistant }
        else st
    else st

/-- A raw tool call that carries its own non-empty (truthy) id, so that no
id is synthesized for it. -/
def hasOwnId (tc : RawToolCall) : Bool :=
  match tc.id with
  | some s => s != ""
  | none => false

/-- All tool-call record ids of a derived record list, in order. -/
def outIds (l : List ProcessedMessage) : List String :=
  l.foldr (fun p acc => p.toolCalls.map ToolCall.id ++ acc) []

/-- The `messageMap` keys inserted while processing a message sequence: one
per non-tool message, in order (`message.id!`). -/
def msgKeys (msgs : List Message) : List (Option String) :=
  (msgs.filter (fun m => m.typ != MsgType.tool)).map (fun m => m.id)

/-- The keys of the correlator state, in insertion order. -/
def entriesKeys (entries : List (Option String × MapEntry)) : List (Option String) :=
  entries.map (fun p => p.1)

/-- The tool-call ids the correlator extracts, message by message, starting
from draw counter `k`; returns the ids in extraction order and the final
counter.  This is the id trace of the very fold `processedMessages`
performs. -/
def extractedIds (interrupt : Option Interrupt) (rng : Nat → String) :
    List Message → Nat → List String × Nat
  | [], k => ([], k)
  | m :: rest, k =>
    match m.typ with
    | .ai =>
      let tk := toolCallsWithStatus interrupt rng (toolCallsInMessage m) k
      let rk := extractedIds interrupt rng rest tk.2
      (tk.1.map ToolCall.id ++ rk.1, rk.2)
    | _ => extractedIds interrupt rng rest k

/-- The ids extracted for the assistant turns of a full message sequence
processed from a fresh state. -/
def allExtractedIds (msgs : List Message) (interrupt : Option Interrupt)
    (rng : Nat → String) : List String :=
  (extractedIds interrupt rng msgs 0).1

/-- Some entry of the correlator state owns a tool call with id `cid`. -/
def HasCall (entries : List (Option String × MapEntry)) (cid : String) : Prop :=
  ∃ p ∈ entries, ∃ tc ∈ p.2.toolCalls, tc.id = cid

/-- Some entry of the correlator state owns a tool call with id `cid`,
completed with result `res`. -/
def HasCompletedCall (entries : List (Option String × MapEntry)) (cid res : String) : Prop :=
  ∃ p ∈ entries, ∃ tc ∈ p.2.toolCalls,
    tc.id = cid ∧ tc.status = ToolCallStatus.completed ∧ tc.result = some res

/-- Some derived record of the correlator output owns a tool call with id
`cid`, completed with result `res`. -/
def OutHasCompleted (out : List ProcessedMessage) (cid res : String) : Prop :=
  ∃ p ∈ out, ∃ tc ∈ p.toolCalls,
    tc.id = cid ∧ tc.status = ToolCallStatus.completed ∧ tc.result = some res

/-- Lookup in the doc-id-keyed image map. -/
def refLookup : List (String × ImageRef) → String → Option ImageRef
  | [], _ => none
  | (k, v) :: rest, d => if k == d then some v else refLookup rest d

/-- First entry of an image list carrying a given doc id (the unique one,
in a merged list). -/
def findRef : List ImageRef → String → Option ImageRef
  | [], _ => none
  | img :: rest, d => if img.doc_id == d then some img else findRef rest d

/-- Last entry of an image list carrying a given doc id (`Map` insertion
keeps the last value written per key). -/
def lastWith : List ImageRef → String → Option ImageRef
  | [], _ => none
  | img :: rest, d =>
    match lastWith rest d with
    | some i => some i
    | none => if img.doc_id == d then some img else none

/-- Every pair of a doc-id-keyed image map is keyed by its value's doc id
(an invariant of the merge's two insertion folds). -/
def RefKeysOk (m : List (String × ImageRef)) : Prop :=
  ∀ p ∈ m, p.2.doc_id = p.1

/-- The existing artifact list a metadata object yields to the merge
(defaulting to empty when the `images` key is absent or not an array). -/
def existingImagesOf (m : List (String × MetaVal)) : List ImageRef :=
  match metaLookup m "images" with
  | some (.imgs l) => l
  | _ => []

/-- The single assistant message of the determinism counterexample: its
provider-native field carries one tool call without an id, so the
correlator synthesizes one from `Math.random()`. -/
def msgNoId : Message :=
  { typ := .ai, id := some "m1", content := .str "",
    akToolCalls := .arr [⟨none, none, none, some "search", none, none, none⟩],
    toolCalls := .absent, toolCallId := none }

/-- A raw tool call carrying its own id, for the extraction-precedence
counterexample. -/
def rawSearchCall : RawToolCall :=
  ⟨some "c1", none, none, some "search", none, none, none⟩

/-- An assistant message whose single tool call carries its own id. -/
def msgWithId : Message :=
  { typ := .ai, id := some "m1", content := .str "",
    akToolCalls := .arr [rawSearchCall], toolCalls := .absent, toolCallId := none }

/-- A tool message answering call `"c1"` with content `"3 results"`. -/
def toolMsgC1 : Message :=
  { typ := .tool, id := some "m2", content := .str "3 results",
    akToolCalls := .absent, toolCalls := .absent, toolCallId := some "c1" }

/-- A tool message whose call id `"zz"` matches no extracted call. -/
def toolMsgZZ : Message :=
  { typ := .tool, id := some "m3", content := .str "orphan",
    akToolCalls := .absent, toolCalls := .absent, toolCallId := some "zz" }

/-! ## Theorems -/

/-- C7 counterexample: the claim says interrupt resolution never throws
even when a field is present but not a list; but with
`action_requests: "bad"` (a truthy non-array), `actionRequests.map` throws
a `TypeError`. -/
theorem interrupt_resolver_throws_cex :
    actionRequestsMap (some ⟨.obj [("action_requests", .str "bad")]⟩) =
      .error "TypeError: actionRequests.map is not a function" := rfl

/-- C7 (amended): the two maps are always present and are empty whenever
the interrupt is absent, its value is falsy, or the respective field is
absent or falsy; only a present truthy non-list field makes the resolution
throw. -/
theorem interrupt_resolver_empty_maps (interrupt : Option Interrupt)
    (ha : ∀ i, interrupt = some i → i.value.truthy = true →
      (i.value.getField "action_requests").truthy = false)
    (hr : ∀ i, interrupt = some i → i.value.truthy = true →
      (i.value.getField "review_configs").truthy = false) :
    actionRequestsMap interrupt = .ok [] ∧ reviewConfigsMap interrupt = .ok [] := by
  cases interrupt with
  | none => exact ⟨rfl, rfl⟩
  | some i =>
    constructor
    · cases hv : i.value.truthy with
      | false => simp [actionRequestsMap, hv]
      | true => simp [actionRequestsMap, hv, ha i rfl hv]
    · cases hv : i.value.truthy with
      | false => simp [reviewConfigsMap, hv]
      | true => simp [reviewConfigsMap, hv, hr i rfl hv]

/-- C7 witness: a present interrupt whose `action_requests` field is absent
and whose `review_configs` field is falsy yields two present empty maps. -/
theorem interrupt_resolver_empty_maps_witness :
    actionRequestsMap (some ⟨.obj [("review_configs", .num 0)]⟩) = .ok [] ∧
    reviewConfigsMap (some ⟨.obj [("review_configs", .num 0)]⟩) = .ok [] :=
  interrupt_resolver_empty_maps _
    (fun _ hi _ => by cases hi; rfl)
    (fun _ hi _ => by cases hi; rfl)

/-- C9: on a truthy thread-id assignment with a non-empty pending set,
`onThreadId` dispatches exactly one patch carrying the pending references
and returns an empty pending set (cleared at dispatch, not at patch
completion — the patch outcome is not even an input of the transition); a
second assignment observed on the resulting state dispatches nothing. -/
theorem onThreadId_flush_once (tid tid2 : String) (pending : List ImageRef)
    (ht : tid ≠ "") (hp : pending ≠ []) :
    onThreadId tid pending = ([], [⟨tid, pending⟩]) ∧
    (onThreadId tid2 (onThreadId tid pending).1).2 = [] := by
  have h1 : onThreadId tid pending = ([], [⟨tid, pending⟩]) := by
    simp [onThreadId, ht, hp]
  exact ⟨h1, by rw [h1]; simp [onThreadId]⟩

/-- C9 witness at a concrete assignment. -/
theorem onThreadId_flush_once_witness :
    ("t1" : String) ≠ "" ∧ ([⟨"d1", "p1"⟩] : List ImageRef) ≠ [] ∧
    (onThreadId "t1" [⟨"d1", "p1"⟩] = ([], [⟨"t1", [⟨"d1", "p1"⟩]⟩]) ∧
     (onThreadId "t2" (onThreadId "t1" [⟨"d1", "p1"⟩]).1).2 = []) :=
  ⟨by decide, by decide, onThreadId_flush_once "t1" "t2" _ (by decide) (by decide)⟩

/-- C4 counterexample: two artifact-bearing sends before any thread id
exists; the second send overwrites the pending set, so the first send's
reference is lost and the eventual flush patch carries only the second
send's reference — contradicting the claim that all pending references are
preserved. -/
theorem pending_refs_lost_cex :
    (sendMessageSideChannel none [⟨"docB", "urlB", "pathB"⟩]
        (sendMessageSideChannel none [⟨"docA", "urlA", "pathA"⟩] []).1).1 =
      [⟨"docB", "pathB"⟩] ∧
    (⟨"docA", "pathA"⟩ : ImageRef) ∉
      (sendMessageSideChannel none [⟨"docB", "urlB", "pathB"⟩]
        (sendMessageSideChannel none [⟨"docA", "urlA", "pathA"⟩] []).1).1 ∧
    (onThreadId "t1" (sendMessageSideChannel none [⟨"docB", "urlB", "pathB"⟩]
        (sendMessageSideChannel none [⟨"docA", "urlA", "pathA"⟩] []).1).1).2 =
      [⟨"t1", [⟨"docB", "pathB"⟩]⟩] := by decide

/-- C4 (amended): recording pending references replaces the pending set
wholesale — after an artifact-bearing send with no thread id, the pending
set equals exactly that send's references whatever was pending before
(earlier pending references are lost), and no patch is dispatched. -/
theorem pending_refs_overwritten (uploadedImages : List UploadedImage)
    (pending : List ImageRef) (h : uploadedImages ≠ []) :
    (sendMessageSideChannel none uploadedImages pending).1 =
      uploadedImages.map UploadedImage.toRef ∧
    (sendMessageSideChannel none uploadedImages pending).2 = [] := by
  cases uploadedImages with
  | nil => exact absurd rfl h
  | cons a l => exact ⟨by simp [sendMessageSideChannel], by simp [sendMessageSideChannel]⟩

/-- C4 witness at a concrete second send. -/
theorem pending_refs_overwritten_witness :
    ([⟨"docB", "urlB", "pathB"⟩] : List UploadedImage) ≠ [] ∧
    ((sendMessageSideChannel none [⟨"docB", "urlB", "pathB"⟩] [⟨"docA", "pathA"⟩]).1 =
       ([⟨"docB", "urlB", "pathB"⟩] : List UploadedImage).map UploadedImage.toRef ∧
     (sendMessageSideChannel none [⟨"docB", "urlB", "pathB"⟩] [⟨"docA", "pathA"⟩]).2 = []) :=
  ⟨by decide, pending_refs_overwritten _ _ (by decide)⟩

/-- C3 counterexample: an upload failure with text content present still
raises the user-visible alert (the claim says the alert is raised only
when no text content is present). -/
theorem upload_failure_alert_with_text_cex :
    handleSubmit "hi" ["cat.png"] false false (.error "500 boom") =
      [.logError "Failed to upload images: 500 boom",
       .alert "Failed to upload images: 500 boom",
       .send "hi" []] ∧
    jsTrim "hi" ≠ "" := by decide

/-- C3 (amended): on upload failure with artifacts attached, the
user-visible alert is raised unconditionally — whether or not text is
present; the artifact-bearing message is never submitted; and the
text-only send still proceeds exactly when trimmed text is present. -/
theorem upload_failure_effects (input : String) (files : List String) (e : String)
    (hf : files ≠ []) :
    SendEffect.alert ("Failed to upload images: " ++ e) ∈
      handleSubmit input files false false (.error e) ∧
    (∀ t ims, SendEffect.send t ims ∈ handleSubmit input files false false (.error e) →
      ims = []) ∧
    (jsTrim input ≠ "" →
      SendEffect.send (jsTrim input) [] ∈ handleSubmit input files false false (.error e)) ∧
    (jsTrim input = "" →
      ∀ t ims, SendEffect.send t ims ∉ handleSubmit input files false false (.error e)) := by
  have hfe : files.isEmpty = false := by
    cases files with
    | nil => exact absurd rfl hf
    | cons a l => rfl
  by_cases ht : jsTrim input = ""
  · simp [handleSubmit, hfe, ht]
  · simp [handleSubmit, hfe, ht]

/-- C3 witness at a concrete failing upload with text present. -/
theorem upload_failure_effects_witness :
    (["cat.png"] : List String) ≠ [] ∧
    (SendEffect.alert ("Failed to upload images: " ++ "boom") ∈
       handleSubmit "hi" ["cat.png"] false false (.error "boom") ∧
     (∀ t ims, SendEffect.send t ims ∈ handleSubmit "hi" ["cat.png"] false false (.error "boom") →
       ims = []) ∧
     (jsTrim "hi" ≠ "" →
       SendEffect.send (jsTrim "hi") [] ∈ handleSubmit "hi" ["cat.png"] false false (.error "boom")) ∧
     (jsTrim "hi" = "" →
       ∀ t ims, SendEffect.send t ims ∉ handleSubmit "hi" ["cat.png"] false false (.error "boom"))) :=
  ⟨by decide, upload_failure_effects "hi" ["cat.png"] "boom" (by decide)⟩

/-- C2 counterexample: a provider-native tool-call field that is present
but an empty array stops the extraction chain (empty arrays are truthy),
so nothing is extracted even though the normalized field carries a
non-empty call list the claim says should win. -/
theorem native_empty_stops_extraction_cex :
    toolCallsInMessage
      { typ := .ai, id := some "m1", content := .str "",
        akToolCalls := .arr [], toolCalls := .arr [rawSearchCall], toolCallId := none } = [] ∧
    ([rawSearchCall].filter (fun tc => tc.name != some "")) = [rawSearchCall] :=
  ⟨rfl, rfl⟩

/-- C2 (amended): extraction stops at the first representation that is
present as an array — even an empty one: an array-valued provider-native
field is extracted verbatim; only when it is absent or not an array is the
normalized list (filtered of empty-named calls) used; only when both are
absent or non-arrays are the `tool_use` content blocks used. -/
theorem extraction_precedence (m : Message) :
    (∀ l, m.akToolCalls = .arr l → toolCallsInMessage m = l) ∧
    (∀ l, (m.akToolCalls = JsField.absent ∨ m.akToolCalls = JsField.notArr) →
       m.toolCalls = .arr l →
       toolCallsInMessage m = l.filter (fun tc => tc.name != some "")) ∧
    (∀ bs, (m.akToolCalls = JsField.absent ∨ m.akToolCalls = JsField.notArr) →
       (m.toolCalls = JsField.absent ∨ m.toolCalls = JsField.notArr) →
       m.content = .blocks bs →
       toolCallsInMessage m =
         (bs.filter (fun b => b.typ == some "tool_use")).map ContentBlock.asRawToolCall) := by
  refine ⟨?_, ?_, ?_⟩
  · intro l h
    simp [toolCallsInMessage, h]
  · intro l hak htc
    rcases hak with h | h <;> simp [toolCallsInMessage, h, htc]
  · intro bs hak htc hc
    rcases hak with h | h <;> rcases htc with h2 | h2 <;>
      simp [toolCallsInMessage, h, h2, hc]

/-- C2 witness: the provider-native branch extracted verbatim at a concrete
message. -/
theorem extraction_precedence_witness :
    toolCallsInMessage
      { typ := .ai, id := some "m2", content := .str "",
        akToolCalls := .arr [], toolCalls := .arr [rawSearchCall], toolCallId := none } = [] :=
  (extraction_precedence _).1 [] rfl

/-- C5 counterexample: for a UUID-shaped identifier whose direct lookup
fails, the synthesized placeholder's display name is the constant
`"Assistant"`, not the requested identifier the claim promises. -/
theorem uuid_placeholder_name_cex :
    fetchAssistant "123e4567-e89b-12d3-a456-426614174000" "2026-01-01T00:00:00Z"
        (.error ⟨none, none, "network error"⟩) (.ok []) =
      .ok (placeholderAssistant "123e4567-e89b-12d3-a456-426614174000"
        "2026-01-01T00:00:00Z" "Assistant") ∧
    ("Assistant" : String) ≠ "123e4567-e89b-12d3-a456-426614174000" := by
  exact ⟨rfl, by decide⟩

/-- C5 (amended): agent resolution never throws — every input yields a
descriptor — and for a UUID-shaped identifier whose direct lookup fails it
returns the placeholder carrying the requested identifier as both its
identifier and its graph identifier, with the fixed display name
`"Assistant"`. -/
theorem fetchAssistant_total (targetId now : String)
    (getResult : Except JsError Assistant)
    (searchResult : Except JsError (List Assistant)) (e : JsError) :
    (∃ a, fetchAssistant targetId now getResult searchResult = .ok a) ∧
    (isUUID targetId = true →
      fetchAssistant targetId now (.error e) searchResult =
        .ok (placeholderAssistant targetId now "Assistant")) := by
  constructor
  · cases h : isUUID targetId with
    | true =>
      cases getResult with
      | ok a => exact ⟨a, by simp [fetchAssistant, h, tryCatch]⟩
      | error e' =>
        exact ⟨placeholderAssistant targetId now "Assistant",
          by simp [fetchAssistant, h, tryCatch]⟩
    | false =>
      cases searchResult with
      | ok assistants =>
        cases hfind : assistants.find? (fun a => a.created_by == some "system") with
        | some a => exact ⟨a, by simp [fetchAssistant, h, tryCatch, hfind]⟩
        | none =>
          refine ⟨placeholderAssistant targetId now targetId, ?_⟩
          simp [fetchAssistant, h, tryCatch, hfind]
      | error e' =>
        refine ⟨placeholderAssistant targetId now targetId, ?_⟩
        by_cases h404 : e'.status == some 404 || e'.respStatus == some 404
        · simp [fetchAssistant, h, tryCatch, h404]
        · simp [fetchAssistant, h, tryCatch, h404]
  · intro h
    simp [fetchAssistant, h, tryCatch]

/-- C5 witness: a UUID that fails lookup with a non-404 error resolves to
the placeholder. -/
theorem fetchAssistant_total_witness :
    isUUID "123e4567-e89b-12d3-a456-426614174001" = true ∧
    ((∃ a, fetchAssistant "123e4567-e89b-12d3-a456-426614174001" "t0"
        (.error ⟨some 500, none, "boom"⟩) (.ok []) = .ok a) ∧
     (isUUID "123e4567-e89b-12d3-a456-426614174001" = true →
       fetchAssistant "123e4567-e89b-12d3-a456-426614174001" "t0"
         (.error ⟨some 500, none, "boom"⟩) (.ok []) =
         .ok (placeholderAssistant "123e4567-e89b-12d3-a456-426614174001" "t0" "Assistant"))) :=
  ⟨by decide, fetchAssistant_total _ _ _ _ ⟨some 500, none, "boom"⟩⟩

/-- C10: thread-driven agent re-resolution is restricted to the two
hard-coded graph names — whenever the thread's backing agent id is neither
`"research"` nor `"chat"` and any successful lookup of it yields a graph
name that is neither `"research"` nor `"chat"`, both `loadThreadAssistant`
and the `onThreadSelect` handler leave the session state (selected agent
id and active descriptor) unchanged. -/
theorem thread_agent_frame :
    (∀ (threadResult : Except JsError Thread)
       (lookup : String → Except JsError Assistant)
       (fetchedFor : String → Assistant) (st : SessionState),
       (∀ thread tid, threadResult = .ok thread →
          jsOrOptStr thread.metaAssistantId thread.assistant_id = some tid →
          tid ≠ "research" ∧ tid ≠ "chat" ∧
          (∀ a, lookup tid = .ok a → a.graph_id ≠ "research" ∧ a.graph_id ≠ "chat")) →
       loadThreadAssistant threadResult lookup fetchedFor st = st) ∧
    (∀ (assistantId : Option String)
       (lookup : String → Except JsError Assistant)
       (fetchedFor : String → Assistant) (st : SessionState),
       (∀ aid, assistantId = some aid →
          aid ≠ "research" ∧ aid ≠ "chat" ∧
          (∀ a, lookup aid = .ok a → a.graph_id ≠ "research" ∧ a.graph_id ≠ "chat")) →
       onThreadSelect assistantId lookup fetchedFor st = st) := by
  constructor
  · intro threadResult lookup fetchedFor st h
    cases threadResult with
    | error e => rfl
    | ok thread =>
      cases hjs : jsOrOptStr thread.metaAssistantId thread.assistant_id with
      | none => simp [loadThreadAssistant, hjs]
      | some tid =>
        obtain ⟨h1, h2, h3⟩ := h thread tid rfl hjs
        by_cases hz : tid = ""
        · simp [loadThreadAssistant, hjs, hz]
        · cases hu : isUUID tid with
          | false => simp [loadThreadAssistant, hjs, hz, hu, h1, h2]
          | true =>
            cases hl : lookup tid with
            | error e => simp [loadThreadAssistant, hjs, hz, hu, hl]
            | ok a =>
              obtain ⟨g1, g2⟩ := h3 a hl
              simp [loadThreadAssistant, hjs, hz, hu, hl, g1, g2]
  · intro assistantId lookup fetchedFor st h
    cases assistantId with
    | none => rfl
    | some aid =>
      obtain ⟨h1, h2, h3⟩ := h aid rfl
      unfold onThreadSelect
      by_cases hz : aid = ""
      · simp [hz]
      · cases hu : isUUID aid with
        | false => simp [hz, h1, h2, hu]
        | true =>
          cases hl : lookup aid with
          | error e => simp [hz, hu, hl]
          | ok a =>
            obtain ⟨g1, g2⟩ := h3 a hl
            simp [hz, hu, hl, g1, g2]

/-- C10 witness: a thread backed by graph `"email"` leaves the session
state unchanged on both paths. -/
theorem thread_agent_frame_witness :
    loadThreadAssistant (.ok ⟨some "email", none⟩)
        (fun _ => .error ⟨none, none, "not found"⟩)
        (fun g => placeholderAssistant g "t0" g) ⟨"research", none⟩ =
      ⟨"research", none⟩ ∧
    onThreadSelect (some "email")
        (fun _ => .error ⟨none, none, "not found"⟩)
        (fun g => placeholderAssistant g "t0" g) ⟨"research", none⟩ =
      ⟨"research", none⟩ := by
  constructor
  · refine thread_agent_frame.1 _ _ _ _ ?_
    intro thread tid h1 h2
    cases h1
    have h3 : jsOrOptStr (some "email") none = some "email" := rfl
    rw [h3] at h2
    injection h2 with h4
    subst h4
    exact ⟨by decide, by decide, fun a h => by cases h⟩
  · refine thread_agent_frame.2 _ _ _ _ ?_
    intro aid h1
    injection h1 with h4
    subst h4
    exact ⟨by decide, by decide, fun a h => by cases h⟩

/-- Normalization consumes no random draw when the raw call carries its own
id, so it does not depend on the draw stream. -/
theorem normalizeToolCall_rng_indep (i : Option Interrupt) (rng1 rng2 : Nat → String)
    (k : Nat) (tc : RawToolCall) (h : hasOwnId tc = true) :
    normalizeToolCall i rng1 k tc = normalizeToolCall i rng2 k tc := by
  unfold hasOwnId at h
  cases hid : tc.id with
  | none => rw [hid] at h; exact absurd h (by simp)
  | some s =>
    rw [hid] at h
    have hs : s ≠ "" := by simpa using h
    simp [normalizeToolCall, hid, hs]

/-- A call list all of whose members carry their own ids normalizes
independently of the draw stream. -/
theorem toolCallsWithStatus_rng_indep (i : Option Interrupt) (rng1 rng2 : Nat → String) :
    ∀ (l : List RawToolCall) (k : Nat), (∀ tc ∈ l, hasOwnId tc = true) →
      toolCallsWithStatus i rng1 l k = toolCallsWithStatus i rng2 l k := by
  intro l
  induction l with
  | nil => intro k _; rfl
  | cons tc rest ih =>
    intro k h
    have htc := h tc (List.mem_cons_self tc rest)
    have hrest : ∀ tc' ∈ rest, hasOwnId tc' = true :=
      fun tc' h' => h tc' (List.mem_cons_of_mem _ h')
    have hnorm := normalizeToolCall_rng_indep i rng1 rng2 k tc htc
    simp only [toolCallsWithStatus, hnorm, ih _ hrest]

/-- One correlator step is draw-stream-independent when the message's
extracted calls all carry their own ids. -/
theorem processMessage_rng_indep (i : Option Interrupt) (rng1 rng2 : Nat → String)
    (m : Message) (h : ∀ tc ∈ toolCallsInMessage m, hasOwnId tc = true)
    (st : List (Option String × MapEntry) × Nat) :
    processMessage i rng1 st m = processMessage i rng2 st m := by
  unfold processMessage
  cases m.typ with
  | ai => rw [toolCallsWithStatus_rng_indep i rng1 rng2 _ _ h]
  | tool => rfl
  | human => rfl

/-- The whole correlator fold is draw-stream-independent when every
extracted call of every message carries its own id. -/
theorem foldl_rng_indep (i : Option Interrupt) (rng1 rng2 : Nat → String) :
    ∀ (msgs : List Message) (st : List (Option String × MapEntry) × Nat),
      (∀ m ∈ msgs, ∀ tc ∈ toolCallsInMessage m, hasOwnId tc = true) →
      msgs.foldl (processMessage i rng1) st = msgs.foldl (processMessage i rng2) st := by
  intro msgs
  induction msgs with
  | nil => intro st _; rfl
  | cons m rest ih =>
    intro st h
    rw [List.foldl_cons, List.foldl_cons,
      processMessage_rng_indep i rng1 rng2 m (h m (List.mem_cons_self m rest)) st]
    exact ih _ (fun m' h' => h m' (List.mem_cons_of_mem _ h'))

/-- C1 counterexample: the same single-message sequence, no interrupt, two
invocations whose `Math.random()` draws differ — the derived records
differ, because the synthesized ToolCallRecord id embeds the draw.  This
refutes determinism across invocations as claimed. -/
theorem correlator_nondeterministic_cex :
    processedMessages [msgNoId] none (fun _ => "0.1") ≠
      processedMessages [msgNoId] none (fun _ => "0.2") := by
  intro h
  have h2 := congrArg outIds h
  rw [show outIds (processedMessages [msgNoId] none (fun _ => "0.1")) = ["tool-0.1"] from rfl,
    show outIds (processedMessages [msgNoId] none (fun _ => "0.2")) = ["tool-0.2"] from rfl] at h2
  exact absurd h2 (by decide)

/-- C1 (amended): the correlator is deterministic — independent of the
`Math.random()` draw stream — whenever every extracted tool call carries
its own (truthy) id; only calls lacking an id receive an id synthesized
from a fresh random draw, which can differ across invocations. -/
theorem correlator_deterministic_with_ids (msgs : List Message)
    (interrupt : Option Interrupt) (rng1 rng2 : Nat → String)
    (h : ∀ m ∈ msgs, ∀ tc ∈ toolCallsInMessage m, hasOwnId tc = true) :
    processedMessages msgs interrupt rng1 = processedMessages msgs interrupt rng2 := by
  unfold processedMessages
  rw [foldl_rng_indep interrupt rng1 rng2 msgs ([], 0) h]

/-- C1 witness: a message whose call carries id `"c1"` correlates
identically under two different draw streams. -/
theorem correlator_deterministic_with_ids_witness :
    (∀ m ∈ [msgWithId], ∀ tc ∈ toolCallsInMessage m, hasOwnId tc = true) ∧
    processedMessages [msgWithId] none (fun _ => "0.1") =
      processedMessages [msgWithId] none (fun _ => "0.2") :=
  ⟨by decide, correlator_deterministic_with_ids _ none _ _ (by decide)⟩

/-- Lookup after a keyed insertion into the image map. -/
theorem refLookup_refMapSet (m : List (String × ImageRef)) (k : String)
    (v : ImageRef) (d : String) :
    refLookup (refMapSet m k v) d = if k == d then some v else refLookup m d := by
  induction m with
  | nil => simp [refMapSet, refLookup]
  | cons p rest ih =>
    obtain ⟨k', v'⟩ := p
    by_cases h1 : k' = k <;> by_cases h2 : k' = d
    · subst h1; subst h2; simp [refMapSet, refLookup]
    · subst h1; simp [refMapSet, refLookup, h2]
    · subst h2
      have h3 : ¬k = k' := fun hh => h1 hh.symm
      simp [refMapSet, refLookup, h1, h3]
    · simp [refMapSet, refLookup, h1, h2, ih]

/-- Lookup after the insertion fold of the merge's new entries. -/
theorem refLookup_foldl_set (l : List ImageRef) :
    ∀ (m0 : List (String × ImageRef)) (d : String),
      refLookup (l.foldl (fun m img => refMapSet m img.doc_id img) m0) d =
        match lastWith l d with
        | some img => some img
        | none => refLookup m0 d := by
  induction l with
  | nil => intro m0 d; simp [lastWith]
  | cons x xs ih =>
    intro m0 d
    rw [List.foldl_cons, ih]
    cases hx : lastWith xs d with
    | some i => simp [lastWith, hx]
    | none =>
      rw [refLookup_refMapSet]
      simp only [lastWith, hx]
      by_cases hd : x.doc_id = d <;> simp [hd]

/-- The guarded insertion fold over existing entries equals the plain
insertion fold over the entries with non-falsy doc ids. -/
theorem guarded_foldl_eq_filter (l : List ImageRef) :
    ∀ (m0 : List (String × ImageRef)),
      l.foldl (fun m img => if img.doc_id != "" then refMapSet m img.doc_id img else m) m0 =
        (l.filter (fun img => img.doc_id != "")).foldl
          (fun m img => refMapSet m img.doc_id img) m0 := by
  induction l with
  | nil => intro m0; rfl
  | cons x xs ih =>
    intro m0
    by_cases hx : x.doc_id = ""
    · have hcond : (x.doc_id != "") = false := by simp [hx]
      rw [List.foldl_cons, List.filter_cons, hcond, if_neg Bool.false_ne_true,
        if_neg Bool.false_ne_true]
      exact ih m0
    · have hcond : (x.doc_id != "") = true := by simp [hx]
      rw [List.foldl_cons, List.filter_cons, hcond, if_pos rfl, if_pos rfl,
        List.foldl_cons]
      exact ih (refMapSet m0 x.doc_id x)

/-- A keyed insertion preserves the key invariant. -/
theorem refKeysOk_refMapSet (m : List (String × ImageRef)) (img : ImageRef)
    (h : RefKeysOk m) : RefKeysOk (refMapSet m img.doc_id img) := by
  induction m with
  | nil =>
    intro p hp
    simp only [refMapSet, List.mem_singleton] at hp
    subst hp; rfl
  | cons q rest ih =>
    obtain ⟨k', v'⟩ := q
    intro p hp
    by_cases hk : k' = img.doc_id
    · simp only [refMapSet, hk, beq_self_eq_true, if_true, List.mem_cons] at hp
      rcases hp with hp | hp
      · subst hp; exact hk.symm ▸ rfl
      · exact h p (List.mem_cons_of_mem _ hp)
    · have hk' : (k' == img.doc_id) = false := by simp [hk]
      simp only [refMapSet, hk', Bool.false_eq_true, if_false, List.mem_cons] at hp
      rcases hp with hp | hp
      · subst hp; exact h (k', v') (List.mem_cons_self _ _)
      · exact ih (fun q hq => h q (List.mem_cons_of_mem _ hq)) p hp

/-- The insertion fold preserves the key invariant. -/
theorem refKeysOk_foldl_set (l : List ImageRef) :
    ∀ m0, RefKeysOk m0 →
      RefKeysOk (l.foldl (fun m img => refMapSet m img.doc_id img) m0) := by
  induction l with
  | nil => intro m0 h; exact h
  | cons x xs ih =>
    intro m0 h
    rw [List.foldl_cons]
    exact ih _ (refKeysOk_refMapSet m0 x h)

/-- Under the key invariant, searching the map's value list by doc id is
the keyed lookup. -/
theorem findRef_values (m : List (String × ImageRef)) (h : RefKeysOk m) (d : String) :
    findRef (m.map (fun p => p.2)) d = refLookup m d := by
  induction m with
  | nil => rfl
  | cons p rest ih =>
    obtain ⟨k, v⟩ := p
    have hv : v.doc_id = k := h (k, v) (List.mem_cons_self _ _)
    simp only [List.map_cons, findRef, refLookup, hv]
    by_cases hd : k = d <;>
      simp [hd, ih (fun q hq => h q (List.mem_cons_of_mem _ hq))]

/-- Characterization of the merge: for each doc id, the surviving entry is
the last new entry with that id, else the last existing entry with a
non-falsy id equal to it. -/
theorem mergeImages_lookup (ex news : List ImageRef) (d : String) :
    findRef (mergeImages ex news) d =
      match lastWith news d with
      | some img => some img
      | none => lastWith (ex.filter (fun img => img.doc_id != "")) d := by
  unfold mergeImages
  rw [guarded_foldl_eq_filter]
  have hkeys0 : RefKeysOk ([] : List (String × ImageRef)) := by
    intro p hp; cases hp
  have hkeys1 := refKeysOk_foldl_set (ex.filter (fun img => img.doc_id != "")) [] hkeys0
  have hkeys2 := refKeysOk_foldl_set news _ hkeys1
  rw [findRef_values _ hkeys2, refLookup_foldl_set, refLookup_foldl_set]
  cases lastWith news d <;>
    cases lastWith (ex.filter (fun img => img.doc_id != "")) d <;>
      simp [refLookup]

/-- Lookup after replacing one key of a metadata object. -/
theorem metaLookup_metaSet (m : List (String × MetaVal)) (k : String)
    (v : MetaVal) (k' : String) :
    metaLookup (metaSet m k v) k' = if k == k' then some v else metaLookup m k' := by
  induction m with
  | nil => simp [metaSet, metaLookup]
  | cons p rest ih =>
    obtain ⟨k0, v0⟩ := p
    by_cases h1 : k0 = k <;> by_cases h2 : k0 = k'
    · subst h1; subst h2; simp [metaSet, metaLookup]
    · subst h1; simp [metaSet, metaLookup, h2]
    · subst h2
      have h3 : ¬k = k0 := fun hh => h1 hh.symm
      simp [metaSet, metaLookup, h1, h3]
    · simp [metaSet, metaLookup, h1, h2, ih]

/-- C8 counterexample: an existing entry with an empty (falsy) identifier
is dropped by the merge even though its identifier is not among the new
entries' identifiers — the claim says every such existing entry is
preserved in the written result. -/
theorem merge_drops_empty_id_cex :
    patchThreadWithImages [("images", MetaVal.imgs [⟨"", "pOld"⟩])] [⟨"a", "pa"⟩] =
      some [("images", MetaVal.imgs [⟨"a", "pa"⟩])] ∧
    (⟨"", "pOld"⟩ : ImageRef) ∈ existingImagesOf [("images", MetaVal.imgs [⟨"", "pOld"⟩])] ∧
    ("" : String) ∉ ([⟨"a", "pa"⟩] : List ImageRef).map ImageRef.doc_id ∧
    (⟨"", "pOld"⟩ : ImageRef) ∉ mergeImages [⟨"", "pOld"⟩] [⟨"a", "pa"⟩] := by decide

/-- C8 (amended): the patch writes the full metadata object — every
non-`images` key of the current thread metadata keeps its value — and the
written artifact list is the identifier-keyed merge: for each identifier,
the surviving entry is the last new entry carrying it, else the last
existing entry carrying it among the existing entries with a non-empty
identifier (existing entries with an empty identifier are dropped).  In
particular new entries override same-identifier existing entries and every
other non-empty-id existing entry is preserved. -/
theorem patch_merge_keyed (currentMetadata : List (String × MetaVal))
    (news : List ImageRef) (h : news ≠ []) :
    patchThreadWithImages currentMetadata news =
      some (metaSet currentMetadata "images"
        (.imgs (mergeImages (existingImagesOf currentMetadata) news))) ∧
    (∀ k, k ≠ "images" →
      metaLookup (metaSet currentMetadata "images"
        (.imgs (mergeImages (existingImagesOf currentMetadata) news))) k =
        metaLookup currentMetadata k) ∧
    (∀ d, findRef (mergeImages (existingImagesOf currentMetadata) news) d =
      match lastWith news d with
      | some img => some img
      | none =>
        lastWith ((existingImagesOf currentMetadata).filter
          (fun img => img.doc_id != "")) d) := by
    refine ⟨?_, ?_, ?_⟩
    · cases news with
      | nil => exact absurd rfl h
      | cons a l => rfl
    · intro k hk
      rw [metaLookup_metaSet]
      simp [Ne.symm hk]
    · intro d
      exact mergeImages_lookup _ _ d

/-- C8 witness: merging two new entries into a thread carrying a title and
two existing artifacts. -/
theorem patch_merge_keyed_witness :
    ([⟨"a", "p2"⟩, ⟨"b", "p3"⟩] : List ImageRef) ≠ [] ∧
    (patchThreadWithImages
        [("title", .other "t"), ("images", .imgs [⟨"a", "p1"⟩, ⟨"c", "p4"⟩])]
        [⟨"a", "p2"⟩, ⟨"b", "p3"⟩] =
      some (metaSet [("title", .other "t"), ("images", .imgs [⟨"a", "p1"⟩, ⟨"c", "p4"⟩])]
        "images"
        (.imgs (mergeImages
          (existingImagesOf [("title", .other "t"), ("images", .imgs [⟨"a", "p1"⟩, ⟨"c", "p4"⟩])])
          [⟨"a", "p2"⟩, ⟨"b", "p3"⟩]))) ∧
     (∀ k, k ≠ "images" →
       metaLookup (metaSet [("title", .other "t"), ("images", .imgs [⟨"a", "p1"⟩, ⟨"c", "p4"⟩])]
         "images"
         (.imgs (mergeImages
           (existingImagesOf [("title", .other "t"), ("images", .imgs [⟨"a", "p1"⟩, ⟨"c", "p4"⟩])])
           [⟨"a", "p2"⟩, ⟨"b", "p3"⟩]))) k =
         metaLookup [("title", .other "t"), ("images", .imgs [⟨"a", "p1"⟩, ⟨"c", "p4"⟩])] k) ∧
     (∀ d, findRef (mergeImages
         (existingImagesOf [("title", .other "t"), ("images", .imgs [⟨"a", "p1"⟩, ⟨"c", "p4"⟩])])
         [⟨"a", "p2"⟩, ⟨"b", "p3"⟩]) d =
       match lastWith [⟨"a", "p2"⟩, ⟨"b", "p3"⟩] d with
       | some img => some img
       | none =>
         lastWith ((existingImagesOf
           [("title", .other "t"), ("images", .imgs [⟨"a", "p1"⟩, ⟨"c", "p4"⟩])]).filter
           (fun img => img.doc_id != "")) d)) :=
  ⟨by decide,
   patch_merge_keyed [("title", .other "t"), ("images", .imgs [⟨"a", "p1"⟩, ⟨"c", "p4"⟩])]
     [⟨"a", "p2"⟩, ⟨"b", "p3"⟩] (by decide)⟩

/-! ### Correlation completeness machinery (C6) -/

/-- Completing the first call with a given id keeps every call's id (only
status and result change). -/
theorem markFirstCompleted_ids (tcid res : String) (l : List ToolCall) :
    ∀ tc ∈ l, ∃ tc' ∈ markFirstCompleted tcid res l, tc'.id = tc.id := by
  induction l with
  | nil => intro tc h; cases h
  | cons x xs ih =>
    intro tc h
    by_cases hx : x.id = tcid
    · have hcond : (x.id == tcid) = true := by simp [hx]
      rw [markFirstCompleted, hcond, if_pos rfl]
      rcases List.mem_cons.mp h with h1 | h1
      · subst h1
        exact ⟨{ tc with status := .completed, result := some res },
          List.mem_cons_self _ _, rfl⟩
      · exact ⟨tc, List.mem_cons_of_mem _ h1, rfl⟩
    · have hcond : (x.id == tcid) = false := by simp [hx]
      rw [markFirstCompleted, hcond, if_neg Bool.false_ne_true]
      rcases List.mem_cons.mp h with h1 | h1
      · subst h1; exact ⟨tc, List.mem_cons_self _ _, rfl⟩
      · obtain ⟨tc', h2, h3⟩ := ih tc h1
        exact ⟨tc', List.mem_cons_of_mem _ h2, h3⟩

/-- Every call of the completed list has the id of some original call. -/
theorem markFirstCompleted_ids_rev (tcid res : String) (l : List ToolCall) :
    ∀ tc' ∈ markFirstCompleted tcid res l, ∃ tc ∈ l, tc.id = tc'.id := by
  induction l with
  | nil => intro tc h; cases h
  | cons x xs ih =>
    intro tc' h
    by_cases hx : x.id = tcid
    · have hcond : (x.id == tcid) = true := by simp [hx]
      rw [markFirstCompleted, hcond, if_pos rfl] at h
      rcases List.mem_cons.mp h with h1 | h1
      · exact ⟨x, List.mem_cons_self _ _, by rw [h1]⟩
      · exact ⟨tc', List.mem_cons_of_mem _ h1, rfl⟩
    · have hcond : (x.id == tcid) = false := by simp [hx]
      rw [markFirstCompleted, hcond, if_neg Bool.false_ne_true] at h
      rcases List.mem_cons.mp h with h1 | h1
      · subst h1; exact ⟨tc', List.mem_cons_self _ _, rfl⟩
      · obtain ⟨tc, h2, h3⟩ := ih tc' h1
        exact ⟨tc, List.mem_cons_of_mem _ h2, h3⟩

/-- A call whose id differs from the completed one is untouched. -/
theorem markFirstCompleted_mem_of_ne (tcid res : String) (l : List ToolCall)
    (tc : ToolCall) (h : tc ∈ l) (hne : tc.id ≠ tcid) :
    tc ∈ markFirstCompleted tcid res l := by
  induction l with
  | nil => cases h
  | cons x xs ih =>
    by_cases hx : x.id = tcid
    · have hcond : (x.id == tcid) = true := by simp [hx]
      rw [markFirstCompleted, hcond, if_pos rfl]
      rcases List.mem_cons.mp h with h1 | h1
      · exact absurd (h1 ▸ hx) hne
      · exact List.mem_cons_of_mem _ h1
    · have hcond : (x.id == tcid) = false := by simp [hx]
      rw [markFirstCompleted, hcond, if_neg Bool.false_ne_true]
      rcases List.mem_cons.mp h with h1 | h1
      · subst h1; exact List.mem_cons_self _ _
      · exact List.mem_cons_of_mem _ (ih h1)

/-- When some call of the list carries the id, completing produces a call
with that id, completed, carrying the result. -/
theorem markFirstCompleted_completes (tcid res : String) (l : List ToolCall)
    (h : ∃ tc ∈ l, tc.id = tcid) :
    ∃ tc' ∈ markFirstCompleted tcid res l,
      tc'.id = tcid ∧ tc'.status = ToolCallStatus.completed ∧ tc'.result = some res := by
  induction l with
  | nil => obtain ⟨tc, h1, _⟩ := h; cases h1
  | cons x xs ih =>
    by_cases hx : x.id = tcid
    · have hcond : (x.id == tcid) = true := by simp [hx]
      rw [markFirstCompleted, hcond, if_pos rfl]
      exact ⟨{ x with status := .completed, result := some res },
        List.mem_cons_self _ _, hx, rfl, rfl⟩
    · have hcond : (x.id == tcid) = false := by simp [hx]
      rw [markFirstCompleted, hcond, if_neg Bool.false_ne_true]
      have h' : ∃ tc ∈ xs, tc.id = tcid := by
        obtain ⟨tc, h1, h2⟩ := h
        rcases List.mem_cons.mp h1 with h3 | h3
        · exact absurd (h3 ▸ h2) hx
        · exact ⟨tc, h3, h2⟩
      obtain ⟨tc', h1, h2⟩ := ih h'
      exact ⟨tc', List.mem_cons_of_mem _ h1, h2⟩

/-- Completing a call preserves the state's keys. -/
theorem completeInEntries_keys (tcid res : String)
    (es : List (Option String × MapEntry)) :
    entriesKeys (completeInEntries tcid res es) = entriesKeys es := by
  induction es with
  | nil => rfl
  | cons p rest ih =>
    obtain ⟨k, e⟩ := p
    rw [completeInEntries]
    by_cases hc : (e.toolCalls.any (fun tc => tc.id == tcid)) = true
    · rw [if_pos hc]; rfl
    · rw [if_neg hc]
      simp only [entriesKeys, List.map_cons] at ih ⊢
      rw [ih]

/-- A state without the call id is left unchanged by completion (the
orphaned tool result is discarded). -/
theorem completeInEntries_id_of_not_hasCall (tcid res : String)
    (es : List (Option String × MapEntry)) (h : ¬HasCall es tcid) :
    completeInEntries tcid res es = es := by
  induction es with
  | nil => rfl
  | cons p rest ih =>
    obtain ⟨k, e⟩ := p
    rw [completeInEntries]
    have hc : (e.toolCalls.any (fun tc => tc.id == tcid)) = false := by
      rw [List.any_eq_false]
      intro tc htc
      simp only [beq_iff_eq]
      intro hid
      exact h ⟨(k, e), List.mem_cons_self _ _, tc, htc, hid⟩
    rw [hc, if_neg Bool.false_ne_true]
    have h' : ¬HasCall rest tcid := by
      intro ⟨p, h1, tc, h2, h3⟩
      exact h ⟨p, List.mem_cons_of_mem _ h1, tc, h2, h3⟩
    rw [ih h']

/-- A state carrying the call id ends with that call completed with the
result. -/
theorem completeInEntries_completes (tcid res : String)
    (es : List (Option String × MapEntry)) (h : HasCall es tcid) :
    HasCompletedCall (completeInEntries tcid res es) tcid res := by
  induction es with
  | nil => obtain ⟨p, h1, _⟩ := h; cases h1
  | cons p rest ih =>
    obtain ⟨k, e⟩ := p
    rw [completeInEntries]
    by_cases hc : (e.toolCalls.any (fun tc => tc.id == tcid)) = true
    · rw [if_pos hc]
      have hcall : ∃ tc ∈ e.toolCalls, tc.id = tcid := by
        obtain ⟨tc, h1, h2⟩ := List.any_eq_true.mp hc
        exact ⟨tc, h1, by simpa using h2⟩
      obtain ⟨tc', h1, h2, h3, h4⟩ := markFirstCompleted_completes tcid res e.toolCalls hcall
      exact ⟨(k, { e with toolCalls := markFirstCompleted tcid res e.toolCalls }),
        List.mem_cons_self _ _, tc', h1, h2, h3, h4⟩
    · rw [if_neg hc]
      have h' : HasCall rest tcid := by
        obtain ⟨p, h1, tc, h2, h3⟩ := h
        rcases List.mem_cons.mp h1 with h4 | h4
        · exfalso
          have h2' : tc ∈ e.toolCalls := by rw [h4] at h2; exact h2
          exact hc (List.any_eq_true.mpr ⟨tc, h2', by simp [h3]⟩)
        · exact ⟨p, h4, tc, h2, h3⟩
      obtain ⟨p, h1, tc, h2, h3⟩ := ih h'
      exact ⟨p, List.mem_cons_of_mem _ h1, tc, h2, h3⟩

/-- Completing one call preserves an already-completed different call. -/
theorem completeInEntries_preserves_completed (tcid res cid res0 : String)
    (es : List (Option String × MapEntry)) (hne : cid ≠ tcid)
    (h : HasCompletedCall es cid res0) :
    HasCompletedCall (completeInEntries tcid res es) cid res0 := by
  induction es with
  | nil => obtain ⟨p, h1, _⟩ := h; cases h1
  | cons p rest ih =>
    obtain ⟨k, e⟩ := p
    rw [completeInEntries]
    by_cases hc : (e.toolCalls.any (fun tc => tc.id == tcid)) = true
    · rw [if_pos hc]
      obtain ⟨q, h1, tc, h2, h3, h4, h5⟩ := h
      rcases List.mem_cons.mp h1 with h6 | h6
      · have he : q.2.toolCalls = e.toolCalls := by rw [h6]
        have htc : tc ∈ markFirstCompleted tcid res e.toolCalls :=
          markFirstCompleted_mem_of_ne tcid res e.toolCalls tc (he ▸ h2) (h3 ▸ hne)
        exact ⟨(k, { e with toolCalls := markFirstCompleted tcid res e.toolCalls }),
          List.mem_cons_self _ _, tc, htc, h3, h4, h5⟩
      · exact ⟨q, List.mem_cons_of_mem _ h6, tc, h2, h3, h4, h5⟩
    · rw [if_neg hc]
      obtain ⟨q, h1, tc, h2, h3, h4, h5⟩ := h
      rcases List.mem_cons.mp h1 with h6 | h6
      · exact ⟨(k, e), List.mem_cons_self _ _, tc, h6 ▸ h2, h3, h4, h5⟩
      · obtain ⟨q', g1, tc', g2, g3, g4, g5⟩ := ih ⟨q, h6, tc, h2, h3, h4, h5⟩
        exact ⟨q', List.mem_cons_of_mem _ g1, tc', g2, g3, g4, g5⟩

/-- Completing preserves the presence of every call id. -/
theorem completeInEntries_preserves_hasCall (tcid res cid : String)
    (es : List (Option String × MapEntry)) (h : HasCall es cid) :
    HasCall (completeInEntries tcid res es) cid := by
  induction es with
  | nil => obtain ⟨p, h1, _⟩ := h; cases h1
  | cons p rest ih =>
    obtain ⟨k, e⟩ := p
    rw [completeInEntries]
    by_cases hc : (e.toolCalls.any (fun tc => tc.id == tcid)) = true
    · rw [if_pos hc]
      obtain ⟨q, h1, tc, h2, h3⟩ := h
      rcases List.mem_cons.mp h1 with h6 | h6
      · have he : q.2.toolCalls = e.toolCalls := by rw [h6]
        obtain ⟨tc', g1, g2⟩ := markFirstCompleted_ids tcid res e.toolCalls tc (he ▸ h2)
        exact ⟨(k, { e with toolCalls := markFirstCompleted tcid res e.toolCalls }),
          List.mem_cons_self _ _, tc', g1, g2.trans h3⟩
      · exact ⟨q, List.mem_cons_of_mem _ h6, tc, h2, h3⟩
    · rw [if_neg hc]
      obtain ⟨q, h1, tc, h2, h3⟩ := h
      rcases List.mem_cons.mp h1 with h6 | h6
      · exact ⟨(k, e), List.mem_cons_self _ _, tc, h6 ▸ h2, h3⟩
      · obtain ⟨q', g1, tc', g2, g3⟩ := ih ⟨q, h6, tc, h2, h3⟩
        exact ⟨q', List.mem_cons_of_mem _ g1, tc', g2, g3⟩

/-- Completing introduces no new call ids. -/
theorem completeInEntries_hasCall_rev (tcid res cid : String)
    (es : List (Option String × MapEntry))
    (h : HasCall (completeInEntries tcid res es) cid) : HasCall es cid := by
  induction es with
  | nil => obtain ⟨p, h1, _⟩ := h; cases h1
  | cons p rest ih =>
    obtain ⟨k, e⟩ := p
    rw [completeInEntries] at h
    by_cases hc : (e.toolCalls.any (fun tc => tc.id == tcid)) = true
    · rw [if_pos hc] at h
      obtain ⟨q, h1, tc, h2, h3⟩ := h
      rcases List.mem_cons.mp h1 with h6 | h6
      · have he : q.2.toolCalls = markFirstCompleted tcid res e.toolCalls := by rw [h6]
        obtain ⟨tc0, g1, g2⟩ := markFirstCompleted_ids_rev tcid res e.toolCalls tc (he ▸ h2)
        exact ⟨(k, e), List.mem_cons_self _ _, tc0, g1, g2.trans h3⟩
      · exact ⟨q, List.mem_cons_of_mem _ h6, tc, h2, h3⟩
    · rw [if_neg hc] at h
      obtain ⟨q, h1, tc, h2, h3⟩ := h
      rcases List.mem_cons.mp h1 with h6 | h6
      · exact ⟨(k, e), List.mem_cons_self _ _, tc, h6 ▸ h2, h3⟩
      · obtain ⟨q', g1, tc', g2, g3⟩ := ih ⟨q, h6, tc, h2, h3⟩
        exact ⟨q', List.mem_cons_of_mem _ g1, tc', g2, g3⟩

/-- Inserting under a fresh key appends the entry. -/
theorem msgMapSet_fresh (es : List (Option String × MapEntry)) (k : Option String)
    (v : MapEntry) (h : k ∉ entriesKeys es) : msgMapSet es k v = es ++ [(k, v)] := by
  induction es with
  | nil => rfl
  | cons p rest ih =>
    obtain ⟨k', v'⟩ := p
    have h1 : ¬k' = k := by
      intro hh
      exact h (by simp [entriesKeys, hh])
    have h2 : k ∉ entriesKeys rest := by
      intro hh
      exact h (by simp [entriesKeys] at hh ⊢; exact Or.inr hh)
    have hcond : (k' == k) = false := by simp [h1]
    rw [msgMapSet, hcond, if_neg Bool.false_ne_true, ih h2]
    rfl

/-- Every entry of the map after an insertion is an old entry or the
inserted one. -/
theorem msgMapSet_mem (es : List (Option String × MapEntry)) (k : Option String)
    (v : MapEntry) : ∀ p ∈ msgMapSet es k v, p ∈ es ∨ p = (k, v) := by
  induction es with
  | nil =>
    intro p hp
    right
    simp only [msgMapSet, List.mem_singleton] at hp
    exact hp
  | cons q rest ih =>
    obtain ⟨k', v'⟩ := q
    intro p hp
    rw [msgMapSet] at hp
    by_cases hc : k' = k
    · have hcond : (k' == k) = true := by simp [hc]
      rw [hcond, if_pos rfl] at hp
      rcases List.mem_cons.mp hp with h1 | h1
      · right; rw [h1, hc]
      · left; exact List.mem_cons_of_mem _ h1
    · have hcond : (k' == k) = false := by simp [hc]
      rw [hcond, if_neg Bool.false_ne_true] at hp
      rcases List.mem_cons.mp hp with h1 | h1
      · left; rw [h1]; exact List.mem_cons_self _ _
      · rcases ih p h1 with h2 | h2
        · left; exact List.mem_cons_of_mem _ h2
        · right; exact h2

/-- A non-tool head contributes its key. -/
theorem msgKeys_cons_not_tool (m : Message) (rest : List Message)
    (h : m.typ ≠ MsgType.tool) : msgKeys (m :: rest) = m.id :: msgKeys rest := by
  have hc : (m.typ != MsgType.tool) = true := by simp [h]
  simp only [msgKeys]
  rw [List.filter_cons, hc, if_pos rfl, List.map_cons]

/-- A tool head contributes no key. -/
theorem msgKeys_cons_tool (m : Message) (rest : List Message)
    (h : m.typ = MsgType.tool) : msgKeys (m :: rest) = msgKeys rest := by
  have hc : (m.typ != MsgType.tool) = false := by simp [h]
  simp only [msgKeys]
  rw [List.filter_cons, hc, if_neg Bool.false_ne_true]

/-- Keys split over message-list concatenation. -/
theorem msgKeys_append (l1 l2 : List Message) :
    msgKeys (l1 ++ l2) = msgKeys l1 ++ msgKeys l2 := by
  simp [msgKeys, List.filter_append]

/-- The state's keys after a run are the initial keys followed by the
processed messages' keys, provided they are jointly distinct. -/
theorem run_keys (i : Option Interrupt) (rng : Nat → String) :
    ∀ (msgs : List Message) (es : List (Option String × MapEntry)) (k : Nat),
      List.Nodup (entriesKeys es ++ msgKeys msgs) →
      entriesKeys ((msgs.foldl (processMessage i rng) (es, k)).1) =
        entriesKeys es ++ msgKeys msgs := by
  intro msgs
  induction msgs with
  | nil => intro es k _; simp [msgKeys]
  | cons m rest ih =>
    intro es k hnd
    rw [List.foldl_cons]
    cases hm : m.typ with
    | ai =>
      have hne : m.typ ≠ MsgType.tool := by rw [hm]; intro hh; cases hh
      have hkeys := msgKeys_cons_not_tool m rest hne
      rw [hkeys] at hnd
      have hfresh : m.id ∉ entriesKeys es := by
        rw [List.nodup_append] at hnd
        exact fun hmem => hnd.2.2 hmem (List.mem_cons_self _ _)
      have hnd' : List.Nodup ((entriesKeys es ++ [m.id]) ++ msgKeys rest) := by
        rw [List.append_assoc, List.singleton_append]; exact hnd
      simp only [processMessage, hm]
      rw [msgMapSet_fresh es m.id _ hfresh]
      have hkeys2 : entriesKeys (es ++
          [(m.id, (⟨m, (toolCallsWithStatus i rng (toolCallsInMessage m) k).1⟩ : MapEntry))]) =
          entriesKeys es ++ [m.id] := by
        simp [entriesKeys]
      rw [ih _ _ (by rw [hkeys2]; exact hnd'), hkeys2, hkeys,
        List.append_assoc, List.singleton_append]
    | human =>
      have hne : m.typ ≠ MsgType.tool := by rw [hm]; intro hh; cases hh
      have hkeys := msgKeys_cons_not_tool m rest hne
      rw [hkeys] at hnd
      have hfresh : m.id ∉ entriesKeys es := by
        rw [List.nodup_append] at hnd
        exact fun hmem => hnd.2.2 hmem (List.mem_cons_self _ _)
      have hnd' : List.Nodup ((entriesKeys es ++ [m.id]) ++ msgKeys rest) := by
        rw [List.append_assoc, List.singleton_append]; exact hnd
      simp only [processMessage, hm]
      rw [msgMapSet_fresh es m.id _ hfresh]
      have hkeys2 : entriesKeys (es ++ [(m.id, (⟨m, []⟩ : MapEntry))]) =
          entriesKeys es ++ [m.id] := by
        simp [entriesKeys]
      rw [ih _ _ (by rw [hkeys2]; exact hnd'), hkeys2, hkeys,
        List.append_assoc, List.singleton_append]
    | tool =>
      have hkeys := msgKeys_cons_tool m rest hm
      rw [hkeys] at hnd
      cases hcid : m.toolCallId with
      | none =>
        simp only [processMessage, hm, hcid]
        rw [ih es k hnd, hkeys]
      | some tcid =>
        by_cases hz : tcid = ""
        · have hcond : (tcid == "") = true := by simp [hz]
          simp only [processMessage, hm, hcid]
          rw [hcond, if_pos rfl, ih es k hnd, hkeys]
        · have hcond : (tcid == "") = false := by simp [hz]
          simp only [processMessage, hm, hcid]
          rw [hcond, if_neg Bool.false_ne_true,
            ih _ k (by rw [completeInEntries_keys]; exact hnd),
            completeInEntries_keys, hkeys]

/-- Every call id present initially or extracted along the run is present
in the final state, provided the inserted keys are jointly distinct. -/
theorem run_hasCall (i : Option Interrupt) (rng : Nat → String) :
    ∀ (msgs : List Message) (es : List (Option String × MapEntry)) (k : Nat)
      (cid : String),
      List.Nodup (entriesKeys es ++ msgKeys msgs) →
      (HasCall es cid ∨ cid ∈ (extractedIds i rng msgs k).1) →
      HasCall ((msgs.foldl (processMessage i rng) (es, k)).1) cid := by
  intro msgs
  induction msgs with
  | nil =>
    intro es k cid _ h
    rcases h with h | h
    · exact h
    · simp [extractedIds] at h
  | cons m rest ih =>
    intro es k cid hnd h
    rw [List.foldl_cons]
    cases hm : m.typ with
    | ai =>
      have hne : m.typ ≠ MsgType.tool := by rw [hm]; intro hh; cases hh
      have hkeys := msgKeys_cons_not_tool m rest hne
      rw [hkeys] at hnd
      have hfresh : m.id ∉ entriesKeys es := by
        rw [List.nodup_append] at hnd
        exact fun hmem => hnd.2.2 hmem (List.mem_cons_self _ _)
      have hnd' : List.Nodup ((entriesKeys es ++ [m.id]) ++ msgKeys rest) := by
        rw [List.append_assoc, List.singleton_append]; exact hnd
      simp only [processMessage, hm]
      rw [msgMapSet_fresh es m.id _ hfresh]
      apply ih
      · rw [show entriesKeys (es ++
            [(m.id, (⟨m, (toolCallsWithStatus i rng (toolCallsInMessage m) k).1⟩ : MapEntry))]) =
            entriesKeys es ++ [m.id] by simp [entriesKeys]]
        exact hnd'
      · rcases h with h | h
        · left
          obtain ⟨p, h1, tc, h2, h3⟩ := h
          exact ⟨p, List.mem_append_left _ h1, tc, h2, h3⟩
        · simp only [extractedIds, hm] at h
          rcases List.mem_append.mp h with h | h
          · left
            obtain ⟨tc, h1, h2⟩ := List.mem_map.mp h
            exact ⟨(m.id, ⟨m, (toolCallsWithStatus i rng (toolCallsInMessage m) k).1⟩),
              List.mem_append_right _ (List.mem_singleton.mpr rfl), tc, h1, h2⟩
          · right; exact h
    | human =>
      have hne : m.typ ≠ MsgType.tool := by rw [hm]; intro hh; cases hh
      have hkeys := msgKeys_cons_not_tool m rest hne
      rw [hkeys] at hnd
      have hfresh : m.id ∉ entriesKeys es := by
        rw [List.nodup_append] at hnd
        exact fun hmem => hnd.2.2 hmem (List.mem_cons_self _ _)
      have hnd' : List.Nodup ((entriesKeys es ++ [m.id]) ++ msgKeys rest) := by
        rw [List.append_assoc, List.singleton_append]; exact hnd
      simp only [processMessage, hm]
      rw [msgMapSet_fresh es m.id _ hfresh]
      apply ih
      · rw [show entriesKeys (es ++ [(m.id, (⟨m, []⟩ : MapEntry))]) =
            entriesKeys es ++ [m.id] by simp [entriesKeys]]
        exact hnd'
      · rcases h with h | h
        · left
          obtain ⟨p, h1, tc, h2, h3⟩ := h
          exact ⟨p, List.mem_append_left _ h1, tc, h2, h3⟩
        · simp only [extractedIds, hm] at h
          right; exact h
    | tool =>
      have hkeys := msgKeys_cons_tool m rest hm
      rw [hkeys] at hnd
      have hdisj : HasCall es cid ∨ cid ∈ (extractedIds i rng rest k).1 := by
        rcases h with h | h
        · left; exact h
        · right; simpa only [extractedIds, hm] using h
      cases hcid : m.toolCallId with
      | none =>
        simp only [processMessage, hm, hcid]
        exact ih es k cid hnd hdisj
      | some tcid =>
        by_cases hz : tcid = ""
        · have hcond : (tcid == "") = true := by simp [hz]
          simp only [processMessage, hm, hcid]
          rw [hcond, if_pos rfl]
          exact ih es k cid hnd hdisj
        · have hcond : (tcid == "") = false := by simp [hz]
          simp only [processMessage, hm, hcid]
          rw [hcond, if_neg Bool.false_ne_true]
          apply ih
          · rw [completeInEntries_keys]; exact hnd
          · rcases hdisj with h' | h'
            · exact Or.inl (completeInEntries_preserves_hasCall _ _ _ _ h')
            · exact Or.inr h'

/-- A completed call persists through the rest of the run, provided the
inserted keys are jointly distinct and no later tool message answers the
same call id again. -/
theorem run_preserves_completed (i : Option Interrupt) (rng : Nat → String) :
    ∀ (msgs : List Message) (es : List (Option String × MapEntry)) (k : Nat)
      (cid res : String),
      HasCompletedCall es cid res →
      List.Nodup (entriesKeys es ++ msgKeys msgs) →
      (∀ m ∈ msgs, m.typ = MsgType.tool → m.toolCallId ≠ some cid) →
      HasCompletedCall ((msgs.foldl (processMessage i rng) (es, k)).1) cid res := by
  intro msgs
  induction msgs with
  | nil => intro es k cid res h _ _; exact h
  | cons m rest ih =>
    intro es k cid res h hnd hlater
    have hlater' : ∀ u ∈ rest, u.typ = MsgType.tool → u.toolCallId ≠ some cid :=
      fun u hu => hlater u (List.mem_cons_of_mem _ hu)
    rw [List.foldl_cons]
    cases hm : m.typ with
    | ai =>
      have hne : m.typ ≠ MsgType.tool := by rw [hm]; intro hh; cases hh
      have hkeys := msgKeys_cons_not_tool m rest hne
      rw [hkeys] at hnd
      have hfresh : m.id ∉ entriesKeys es := by
        rw [List.nodup_append] at hnd
        exact fun hmem => hnd.2.2 hmem (List.mem_cons_self _ _)
      have hnd' : List.Nodup ((entriesKeys es ++ [m.id]) ++ msgKeys rest) := by
        rw [List.append_assoc, List.singleton_append]; exact hnd
      simp only [processMessage, hm]
      rw [msgMapSet_fresh es m.id _ hfresh]
      apply ih
      · obtain ⟨p, h1, tc, h2, h3⟩ := h
        exact ⟨p, List.mem_append_left _ h1, tc, h2, h3⟩
      · rw [show entriesKeys (es ++
            [(m.id, (⟨m, (toolCallsWithStatus i rng (toolCallsInMessage m) k).1⟩ : MapEntry))]) =
            entriesKeys es ++ [m.id] by simp [entriesKeys]]
        exact hnd'
      · exact hlater'
    | human =>
      have hne : m.typ ≠ MsgType.tool := by rw [hm]; intro hh; cases hh
      have hkeys := msgKeys_cons_not_tool m rest hne
      rw [hkeys] at hnd
      have hfresh : m.id ∉ entriesKeys es := by
        rw [List.nodup_append] at hnd
        exact fun hmem => hnd.2.2 hmem (List.mem_cons_self _ _)
      have hnd' : List.Nodup ((entriesKeys es ++ [m.id]) ++ msgKeys rest) := by
        rw [List.append_assoc, List.singleton_append]; exact hnd
      simp only [processMessage, hm]
      rw [msgMapSet_fresh es m.id _ hfresh]
      apply ih
      · obtain ⟨p, h1, tc, h2, h3⟩ := h
        exact ⟨p, List.mem_append_left _ h1, tc, h2, h3⟩
      · rw [show entriesKeys (es ++ [(m.id, (⟨m, []⟩ : MapEntry))]) =
            entriesKeys es ++ [m.id] by simp [entriesKeys]]
        exact hnd'
      · exact hlater'
    | tool =>
      have hkeys := msgKeys_cons_tool m rest hm
      rw [hkeys] at hnd
      cases hcid : m.toolCallId with
      | none =>
        simp only [processMessage, hm, hcid]
        exact ih es k cid res h hnd hlater'
      | some tcid =>
        have htne : tcid ≠ cid := by
          intro hh
          exact hlater m (List.mem_cons_self _ _) hm (by rw [hcid, hh])
        by_cases hz : tcid = ""
        · have hcond : (tcid == "") = true := by simp [hz]
          simp only [processMessage, hm, hcid]
          rw [hcond, if_pos rfl]
          exact ih es k cid res h hnd hlater'
        · have hcond : (tcid == "") = false := by simp [hz]
          simp only [processMessage, hm, hcid]
          rw [hcond, if_neg Bool.false_ne_true]
          apply ih
          · exact completeInEntries_preserves_completed tcid _ cid res es
              (fun hh => htne hh.symm) h
          · rw [completeInEntries_keys]; exact hnd
          · exact hlater'

/-- Every call id present at the end of a run was present initially or
extracted along the run. -/
theorem run_hasCall_rev (i : Option Interrupt) (rng : Nat → String) :
    ∀ (msgs : List Message) (es : List (Option String × MapEntry)) (k : Nat)
      (cid : String),
      HasCall ((msgs.foldl (processMessage i rng) (es, k)).1) cid →
      HasCall es cid ∨ cid ∈ (extractedIds i rng msgs k).1 := by
  intro msgs
  induction msgs with
  | nil => intro es k cid h; exact Or.inl h
  | cons m rest ih =>
    intro es k cid h
    rw [List.foldl_cons] at h
    cases hm : m.typ with
    | ai =>
      rw [show processMessage i rng (es, k) m =
          (msgMapSet es m.id ⟨m, (toolCallsWithStatus i rng (toolCallsInMessage m) k).1⟩,
           (toolCallsWithStatus i rng (toolCallsInMessage m) k).2) by
        simp only [processMessage, hm]] at h
      rcases ih _ _ cid h with h' | h'
      · obtain ⟨p, h1, tc, h2, h3⟩ := h'
        rcases msgMapSet_mem es m.id _ p h1 with h4 | h4
        · exact Or.inl ⟨p, h4, tc, h2, h3⟩
        · right
          simp only [extractedIds, hm]
          apply List.mem_append_left
          apply List.mem_map.mpr
          refine ⟨tc, ?_, h3⟩
          have : p.2.toolCalls =
              (toolCallsWithStatus i rng (toolCallsInMessage m) k).1 := by rw [h4]
          exact this ▸ h2
      · right
        simp only [extractedIds, hm]
        exact List.mem_append_right _ h'
    | human =>
      rw [show processMessage i rng (es, k) m =
          (msgMapSet es m.id ⟨m, []⟩, k) by simp only [processMessage, hm]] at h
      rcases ih _ _ cid h with h' | h'
      · obtain ⟨p, h1, tc, h2, h3⟩ := h'
        rcases msgMapSet_mem es m.id _ p h1 with h4 | h4
        · exact Or.inl ⟨p, h4, tc, h2, h3⟩
        · exfalso
          have : p.2.toolCalls = ([] : List ToolCall) := by rw [h4]
          rw [this] at h2
          cases h2
      · right
        simp only [extractedIds, hm]
        exact h'
    | tool =>
      have hres : HasCall es cid ∨ cid ∈ (extractedIds i rng rest k).1 := by
        cases hcid : m.toolCallId with
        | none =>
          rw [show processMessage i rng (es, k) m = (es, k) by
            simp only [processMessage, hm, hcid]] at h
          exact ih _ _ cid h
        | some tcid =>
          by_cases hz : tcid = ""
          · have hcond : (tcid == "") = true := by simp [hz]
            rw [show processMessage i rng (es, k) m = (es, k) by
              simp only [processMessage, hm, hcid]; rw [hcond, if_pos rfl]] at h
            exact ih _ _ cid h
          · have hcond : (tcid == "") = false := by simp [hz]
            rw [show processMessage i rng (es, k) m =
                (completeInEntries tcid (extractStringFromMessageContent m) es, k) by
              simp only [processMessage, hm, hcid]
              rw [hcond, if_neg Bool.false_ne_true]] at h
            rcases ih _ _ cid h with h' | h'
            · exact Or.inl (completeInEntries_hasCall_rev tcid _ cid es h')
            · exact Or.inr h'
      rcases hres with h' | h'
      · exact Or.inl h'
      · right
        simp only [extractedIds, hm]
        exact h'

/-- A normalized call's id is never the empty string: a carried id is
non-empty by the truthiness guard, and a synthesized id starts with
`tool-`. -/
theorem normalize_id_ne_empty (i : Option Interrupt) (rng : Nat → String)
    (k : Nat) (tc : RawToolCall) : (normalizeToolCall i rng k tc).1.id ≠ "" := by
  have hsyn : ∀ x : String, ("tool-" ++ x) ≠ "" := by
    intro x h
    have hlen := congrArg String.length h
    rw [String.length_append] at hlen
    have h5 : "tool-".length = 5 := rfl
    have h0 : "".length = 0 := rfl
    omega
  cases hid : tc.id with
  | none =>
    simp only [normalizeToolCall, hid]
    exact hsyn (rng k)
  | some s =>
    simp only [normalizeToolCall, hid]
    cases hb : (s != "") with
    | true =>
      rw [if_pos rfl]
      simpa using hb
    | false =>
      rw [if_neg Bool.false_ne_true]
      exact hsyn (rng k)

/-- The ids a call list normalizes to are never empty. -/
theorem toolCallsWithStatus_ids_ne_empty (i : Option Interrupt) (rng : Nat → String) :
    ∀ (l : List RawToolCall) (k : Nat) (cid : String),
      cid ∈ (toolCallsWithStatus i rng l k).1.map ToolCall.id → cid ≠ "" := by
  intro l
  induction l with
  | nil => intro k cid h; simp [toolCallsWithStatus] at h
  | cons tc rest ih =>
    intro k cid h
    simp only [toolCallsWithStatus, List.map_cons, List.mem_cons] at h
    rcases h with h | h
    · rw [h]; exact normalize_id_ne_empty i rng k tc
    · exact ih _ cid h

/-- Extracted ids are never the empty string. -/
theorem extractedIds_ne_empty (i : Option Interrupt) (rng : Nat → String) :
    ∀ (msgs : List Message) (k : Nat) (cid : String),
      cid ∈ (extractedIds i rng msgs k).1 → cid ≠ "" := by
  intro msgs
  induction msgs with
  | nil => intro k cid h; simp [extractedIds] at h
  | cons m rest ih =>
    intro k cid h
    cases hm : m.typ with
    | ai =>
      simp only [extractedIds, hm] at h
      rcases List.mem_append.mp h with h | h
      · exact toolCallsWithStatus_ids_ne_empty i rng _ _ cid h
      · exact ih _ cid h
    | human =>
      simp only [extractedIds, hm] at h
      exact ih _ cid h
    | tool =>
      simp only [extractedIds, hm] at h
      exact ih _ cid h

/-- Unfolding of the separator pass at a cons cell. -/
theorem addShowAvatar_cons (prev : Option MsgType) (e : MapEntry)
    (rest : List MapEntry) :
    addShowAvatar prev (e :: rest) =
      { message := e.message, toolCalls := e.toolCalls,
        showAvatar :=
          match prev with
          | none => true
          | some t => t != e.message.typ } :: addShowAvatar (some e.message.typ) rest := rfl

/-- The separator pass preserves a completed call. -/
theorem addShowAvatar_completed (cid res : String) :
    ∀ (vals : List MapEntry) (prev : Option MsgType),
      (∃ e ∈ vals, ∃ tc ∈ e.toolCalls,
        tc.id = cid ∧ tc.status = ToolCallStatus.completed ∧ tc.result = some res) →
      OutHasCompleted (addShowAvatar prev vals) cid res := by
  intro vals
  induction vals with
  | nil =>
    intro prev h
    obtain ⟨e, h1, _⟩ := h
    cases h1
  | cons e rest ih =>
    intro prev h
    obtain ⟨e0, h1, tc, h2, h3⟩ := h
    rw [addShowAvatar_cons]
    rcases List.mem_cons.mp h1 with h4 | h4
    · have he : e0.toolCalls = e.toolCalls := by rw [h4]
      exact ⟨_, List.mem_cons_self _ _, tc, he ▸ h2, h3⟩
    · obtain ⟨p, g1, tc', g2, g3⟩ := ih (some e.message.typ) ⟨e0, h4, tc, h2, h3⟩
      exact ⟨p, List.mem_cons_of_mem _ g1, tc', g2, g3⟩

/-- Transfer of a completed call from the state to its value list. -/
theorem entries_values_completed (es : List (Option String × MapEntry)) (cid res : String)
    (h : HasCompletedCall es cid res) :
    ∃ e ∈ es.map (fun p => p.2), ∃ tc ∈ e.toolCalls,
      tc.id = cid ∧ tc.status = ToolCallStatus.completed ∧ tc.result = some res := by
  obtain ⟨p, h1, tc, h2, h3⟩ := h
  exact ⟨p.2, List.mem_map.mpr ⟨p, h1, rfl⟩, tc, h2, h3⟩

/-- C6: for a tool message `t` answering call id `cid`, (a) when `cid` was
extracted for some earlier assistant message and the non-tool message ids
are distinct and no later tool message answers `cid` again, the
correlator's output contains the record for that call with status
`completed` and result equal to `t`'s extracted text content; and (b) when
`cid` matches no id extracted for the earlier messages, `t` is discarded —
the output equals the output for the same sequence without `t`. -/
theorem correlation_completeness (pre post : List Message) (t : Message)
    (interrupt : Option Interrupt) (rng : Nat → String) (cid : String)
    (htool : t.typ = MsgType.tool) (hid : t.toolCallId = some cid) :
    (cid ∈ allExtractedIds pre interrupt rng →
     List.Nodup (msgKeys (pre ++ t :: post)) →
     (∀ u ∈ post, u.typ = MsgType.tool → u.toolCallId ≠ some cid) →
     OutHasCompleted (processedMessages (pre ++ t :: post) interrupt rng) cid
       (extractStringFromMessageContent t)) ∧
    (cid ∉ allExtractedIds pre interrupt rng →
     processedMessages (pre ++ t :: post) interrupt rng =
       processedMessages (pre ++ post) interrupt rng) := by
  constructor
  · intro hcid hnd hlater
    have hcne : cid ≠ "" := extractedIds_ne_empty interrupt rng pre 0 cid hcid
    simp only [processedMessages]
    rw [List.foldl_append, List.foldl_cons]
    rw [msgKeys_append, msgKeys_cons_tool t post htool] at hnd
    have hndPre : List.Nodup (entriesKeys ([] : List (Option String × MapEntry)) ++ msgKeys pre) := by
      simpa [entriesKeys] using List.Nodup.of_append_left hnd
    have h1 : HasCall (pre.foldl (processMessage interrupt rng) ([], 0)).1 cid :=
      run_hasCall interrupt rng pre [] 0 cid hndPre (Or.inr hcid)
    have hcond : (cid == "") = false := by simp [hcne]
    have hstep : processMessage interrupt rng
        (pre.foldl (processMessage interrupt rng) ([], 0)) t =
        (completeInEntries cid (extractStringFromMessageContent t)
          (pre.foldl (processMessage interrupt rng) ([], 0)).1,
         (pre.foldl (processMessage interrupt rng) ([], 0)).2) := by
      simp only [processMessage, htool, hid]
      rw [hcond, if_neg Bool.false_ne_true]
    rw [hstep]
    have h2 := completeInEntries_completes cid (extractStringFromMessageContent t) _ h1
    have hkeysPre : entriesKeys (pre.foldl (processMessage interrupt rng) ([], 0)).1 =
        msgKeys pre := by
      have := run_keys interrupt rng pre [] 0 hndPre
      simpa [entriesKeys] using this
    have hndPost : List.Nodup (entriesKeys (completeInEntries cid
        (extractStringFromMessageContent t)
        (pre.foldl (processMessage interrupt rng) ([], 0)).1) ++ msgKeys post) := by
      rw [completeInEntries_keys, hkeysPre]
      exact hnd
    have h3 := run_preserves_completed interrupt rng post _
      (pre.foldl (processMessage interrupt rng) ([], 0)).2 cid
      (extractStringFromMessageContent t) h2 hndPost hlater
    exact addShowAvatar_completed cid _ _ none (entries_values_completed _ cid _ h3)
  · intro hcid
    simp only [processedMessages]
    rw [List.foldl_append, List.foldl_append, List.foldl_cons]
    have hstep : processMessage interrupt rng
        (pre.foldl (processMessage interrupt rng) ([], 0)) t =
        pre.foldl (processMessage interrupt rng) ([], 0) := by
      by_cases hz : cid = ""
      · have hcond : (cid == "") = true := by simp [hz]
        simp only [processMessage, htool, hid]
        rw [hcond, if_pos rfl]
      · have hcall : ¬HasCall (pre.foldl (processMessage interrupt rng) ([], 0)).1 cid := by
          intro hc
          rcases run_hasCall_rev interrupt rng pre [] 0 cid hc with h | h
          · obtain ⟨p, h1, _⟩ := h; cases h1
          · exact hcid h
        have hcond : (cid == "") = false := by simp [hz]
        simp only [processMessage, htool, hid]
        rw [hcond, if_neg Bool.false_ne_true,
          completeInEntries_id_of_not_hasCall _ _ _ hcall]
    rw [hstep]

/-- C6 witness: the spec's own scenario — an assistant turn issuing call
`c1`, then the answering tool turn; and the orphan scenario for part (b). -/
theorem correlation_completeness_witness :
    ("c1" ∈ allExtractedIds [msgWithId] none (fun _ => "0.5") ∧
     List.Nodup (msgKeys ([msgWithId] ++ toolMsgC1 :: [])) ∧
     OutHasCompleted (processedMessages ([msgWithId] ++ toolMsgC1 :: []) none
       (fun _ => "0.5")) "c1" (extractStringFromMessageContent toolMsgC1)) ∧
    ("zz" ∉ allExtractedIds [msgWithId] none (fun _ => "0.5") ∧
     processedMessages ([msgWithId] ++ toolMsgZZ :: []) none (fun _ => "0.5") =
       processedMessages ([msgWithId] ++ []) none (fun _ => "0.5")) :=
  ⟨⟨by decide, by decide,
    (correlation_completeness [msgWithId] [] toolMsgC1 none (fun _ => "0.5") "c1"
      rfl rfl).1 (by decide) (by decide)
      (fun u hu => absurd hu (List.not_mem_nil u))⟩,
   ⟨by decide,
    (correlation_completeness [msgWithId] [] toolMsgZZ none (fun _ => "0.5") "zz"
      rfl rfl).2 (by decide)⟩⟩

end DeepAgentsUI
